import Mathlib

/-!
Verification development for the behavior-tree model core (Node, Tree,
Collection, Verification) of this repository.

The model module itself is not present in the source tree (only its test
suite and the GUI layer are), so every definition below is modelled from
the specification document, faithful to its words; the test suite is used
only to fix ambiguous phrasing.  Python dictionaries are modelled as
insertion-ordered association lists, Python's order-insensitive dict
equality as equality of a canonical (key-sorted) form, and the random id
generator as an explicit supply of fresh ids passed to the operations
that generate ids, with freshness stated as a hypothesis.
-/

namespace BTree

/-- A JSON-like document value: the raw parsed documents the core consumes
and produces.  Objects are insertion-ordered association lists, mirroring
Python dictionaries. -/
inductive Json where
  | str : String → Json
  | num : Int → Json
  | bool : Bool → Json
  | arr : List Json → Json
  | obj : List (String × Json) → Json

/-- Total executable lexicographic order on char lists (by code point);
used to order object keys in the canonical form.  Defined by hand because
the library order on strings does not evaluate inside the kernel. -/
def charsLe : List Char → List Char → Bool
  | [], _ => true
  | _ :: _, [] => false
  | a :: as, b :: bs =>
    if a.toNat < b.toNat then true
    else if b.toNat < a.toNat then false
    else charsLe as bs

/-- Executable order on strings. -/
def strLeB (a b : String) : Bool := charsLe a.data b.data

/-- Key order on object entries. -/
def keyLe (p q : String × Json) : Prop := strLeB p.1 q.1 = true

instance : DecidableRel keyLe := fun _ _ => inferInstanceAs (Decidable (_ = true))

mutual

/-- Canonical form of a document: every object's entry list is sorted by
key, recursively.  Two documents are equal as Python values exactly when
their canonical forms coincide (for well-formed documents, whose objects
have no duplicate keys). -/
def Json.canon : Json → Json
  | .str s => .str s
  | .num n => .num n
  | .bool b => .bool b
  | .arr l => .arr (Json.canonList l)
  | .obj kvs => .obj (List.insertionSort keyLe (Json.canonKVs kvs))

/-- Canonical form, mapped over an array. -/
def Json.canonList : List Json → List Json
  | [] => []
  | j :: rest => j.canon :: Json.canonList rest

/-- Canonical form, mapped over the entries of an object. -/
def Json.canonKVs : List (String × Json) → List (String × Json)
  | [] => []
  | (k, v) :: rest => (k, v.canon) :: Json.canonKVs rest

end

/-- Python's equality on parsed documents: order-insensitive on object
keys, order-sensitive on arrays. -/
def Json.pyEq (a b : Json) : Prop := a.canon = b.canon

/-- Look a key up in an association list (Python dict access). -/
def lookupA {α : Type} : List (String × α) → String → Option α
  | [], _ => none
  | (k, v) :: rest, key => if key = k then some v else lookupA rest key

/-- Insert or overwrite a key in an association list, preserving the
position of an existing key (Python dict assignment). -/
def insertA {α : Type} : List (String × α) → String → α → List (String × α)
  | [], key, v => [(key, v)]
  | (k, w) :: rest, key, v =>
      if key = k then (key, v) :: rest else (k, w) :: insertA rest key v

/-- Delete a key from an association list (Python dict deletion). -/
def eraseKeyA {α : Type} : List (String × α) → String → List (String × α)
  | [], _ => []
  | (k, v) :: rest, key => if key = k then eraseKeyA rest key else (k, v) :: eraseKeyA rest key

/-- The keys of an association list. -/
def keysA {α : Type} (l : List (String × α)) : List String := l.map Prod.fst

/-- No duplicate keys. -/
def NodupKeys {α : Type} (l : List (String × α)) : Prop := (keysA l).Nodup

instance {α : Type} (l : List (String × α)) : Decidable (NodupKeys l) :=
  inferInstanceAs (Decidable (keysA l).Nodup)

/-- Modelled from the spec: a single tree vertex of the behavior-tree
model module (absent from the source tree): id, title (type name),
insertion-ordered attribute map, ordered child-id list.  Field order
follows the constructor used by the test suite. -/
structure Node where
  title : String
  id : String
  attributes : List (String × Json) := []
  children : List String := []

/-- Extract a list of strings from a JSON array, failing on any
non-string element. -/
def strListOf : List Json → Option (List String)
  | [] => some []
  | .str s :: rest => (strListOf rest).map (s :: ·)
  | _ :: _ => none

/-- Modelled from the spec: Node parsing (from_document).  Fails when id
or title is missing or not a string, or when children is present but not
a sequence of strings; attributes defaults to an empty map when absent,
children to an empty sequence; a present attributes value that is not a
map is a type mismatch and fails. -/
def Node.from_json (doc : Json) : Option Node :=
  match doc with
  | .obj kvs =>
    match lookupA kvs "id", lookupA kvs "title" with
    | some (.str i), some (.str t) =>
      match (match lookupA kvs "attributes" with
             | none => some []
             | some (.obj a) => some a
             | some _ => none),
            (match lookupA kvs "children" with
             | none => some []
             | some (.arr cs) => strListOf cs
             | some _ => none) with
      | some attrs, some cs => some { title := t, id := i, attributes := attrs, children := cs }
      | _, _ => none
    | _, _ => none
  | _ => none

/-- Modelled from the spec: Node serialization (to_document), the
structural inverse of parsing, omitting the attributes and children keys
exactly when they are empty. -/
def Node.create_json (n : Node) : Json :=
  .obj ([("id", .str n.id), ("title", .str n.title)]
    ++ (if n.attributes.isEmpty then [] else [("attributes", .obj n.attributes)])
    ++ (if n.children.isEmpty then [] else [("children", .arr (n.children.map .str))]))

/-- Modelled from the spec: append a child id. -/
def Node.add_child (n : Node) (c : String) : Node :=
  { n with children := n.children ++ [c] }

/-- Modelled from the spec: remove a child id by value; removing a
non-existent id is a no-op. -/
def Node.remove_child (n : Node) (c : String) : Node :=
  { n with children := n.children.erase c }

/-- Modelled from the spec: direct attribute-map insertion. -/
def Node.add_attribute (n : Node) (k : String) (v : Json) : Node :=
  { n with attributes := insertA n.attributes k v }

/-- Modelled from the spec: direct attribute-map deletion; removing a
non-existent key is a no-op. -/
def Node.remove_attribute (n : Node) (k : String) : Node :=
  { n with attributes := eraseKeyA n.attributes k }

/-- Modelled from the spec: the nested properties map, or an empty map if
absent. -/
def Node.properties (n : Node) : List (String × Json) :=
  match lookupA n.attributes "properties" with
  | some (.obj l) => l
  | _ => []

/-- Modelled from the spec: write into the nested properties map,
creating it on first use. -/
def Node.add_property (n : Node) (k : String) (v : Json) : Node :=
  { n with attributes := insertA n.attributes "properties" (.obj (insertA n.properties k v)) }

/-- Modelled from the spec: replace the properties map entirely with the
given one; if it is empty, the properties key is deleted entirely
(absence, not an empty map, represents "no properties"). -/
def Node.update_properties (n : Node) (new_props : List (String × Json)) : Node :=
  if new_props.isEmpty then { n with attributes := eraseKeyA n.attributes "properties" }
  else { n with attributes := insertA n.attributes "properties" (.obj new_props) }

/-- Modelled from the spec: delete a key from the nested properties map
if present; a no-op if the properties key or the given key is absent. -/
def Node.remove_property (n : Node) (k : String) : Node :=
  match lookupA n.attributes "properties" with
  | some (.obj l) => { n with attributes := insertA n.attributes "properties" (.obj (eraseKeyA l k)) }
  | _ => n

/-- Modelled from the spec: a Tree owns a mapping from id to Node (the
arena) plus labels and a root id; the empty root string means "no
root". -/
structure Tree where
  name : String
  title : String
  nodes : List (String × Node) := []
  root : String := ""

/-- Parse a list of raw node documents, building the id-to-Node map in
document order (later duplicates overwrite, as in a dict build); any node
parse failure propagates. -/
def parseNodes (docs : List Json) : Option (List (String × Node)) :=
  docs.foldl
    (fun acc d => acc.bind (fun m => (Node.from_json d).map (fun n => insertA m n.id n)))
    (some [])

/-- Modelled from the spec: Tree parsing (from_document).  Fails when the
data wrapper is missing; when name or title is missing or not a string;
when the trees array is missing, empty, has more than one entry, or its
single entry is not a map; when that entry's nodes array is missing or
empty or its root is missing or not a string; node parse failures
propagate. -/
def Tree.from_json (doc : Json) : Option Tree :=
  match doc with
  | .obj top =>
    match lookupA top "data" with
    | some (.obj d) =>
      match lookupA d "name", lookupA d "title", lookupA d "trees" with
      | some (.str name), some (.str title), some (.arr [.obj e]) =>
        match lookupA e "nodes", lookupA e "root" with
        | some (.arr nodeDocs), some (.str root) =>
          if nodeDocs.isEmpty then none
          else (parseNodes nodeDocs).map
            (fun ns => { name := name, title := title, nodes := ns, root := root })
        | _, _ => none
      | _, _, _ => none
    | _ => none
  | _ => none

/-- Modelled from the spec: Tree serialization (to_document), the
structural inverse of parsing, always producing exactly one entry inside
the trees array. -/
def Tree.create_json (t : Tree) : Json :=
  .obj [("data", .obj
    [("name", .str t.name), ("title", .str t.title),
     ("trees", .arr [.obj
       [("nodes", .arr (t.nodes.map (fun p => p.2.create_json))),
        ("root", .str t.root)]])])]

/-- The ids owned by a node arena. -/
def keyList (ns : List (String × Node)) : List String := ns.map Prod.fst

/-- Whether an id resolves to a node of the arena. -/
def resolvesB (ns : List (String × Node)) (i : String) : Bool := (lookupA ns i).isSome

/-- The child-reference edge relation of a node arena: an edge from a to
b when a resolves to a node whose children list mentions b (b itself may
be dangling). -/
def EdgeN (ns : List (String × Node)) (a b : String) : Prop :=
  ∃ n, lookupA ns a = some n ∧ b ∈ n.children

/-- Reachability along child references. -/
def ReachN (ns : List (String × Node)) : String → String → Prop :=
  Relation.ReflTransGen (EdgeN ns)

/-- Total number of child references in the arena; part of the fuel
bound for the worklist walks. -/
def totalChildren (ns : List (String × Node)) : Nat :=
  (ns.map (fun p => p.2.children.length)).sum

/-- Number of arena keys not yet visited. -/
def unvisitedCount (ns : List (String × Node)) (vis : List String) : Nat :=
  (keyList ns).countP (fun k => decide (k ∉ vis))

/-- Fuel bound for the visited-set walk: every step of the walk strictly
decreases this potential. -/
def walkPot (ns : List (String × Node)) (vis stack : List String) : Nat :=
  stack.length + unvisitedCount ns vis * (totalChildren ns + 1)

/-- Visited-set worklist walk over child references: pops an id, skips it
if already visited or unresolvable (dangling ids are skipped, they never
fail the walk), otherwise records it and pushes its children.  Fuel makes
the recursion structural; the initial potential is always enough. -/
def walkF (ns : List (String × Node)) : Nat → List String → List String → List String
  | 0, vis, _ => vis
  | _ + 1, vis, [] => vis
  | f + 1, vis, i :: st =>
    if i ∈ vis then walkF ns f vis st
    else match lookupA ns i with
      | none => walkF ns f vis st
      | some n => walkF ns f (i :: vis) (n.children ++ st)

/-- Modelled from the spec: the set of nodes of the subtree rooted at the
given id — every id reachable from it once, deduplicated, safe under
cycles and dangling child ids. -/
def Tree.walk (t : Tree) (start : String) : List String :=
  walkF t.nodes (walkPot t.nodes [] [start]) [] [start]

/-- Modelled from the spec: insert or overwrite a node by id; no
uniqueness failure, last write wins. -/
def Tree.add_node (t : Tree) (n : Node) : Tree :=
  { t with nodes := insertA t.nodes n.id n }

/-- Modelled from the spec: remove a node by id if present, clearing the
root to the empty string if the removed node was the root; reports
whether removal occurred. -/
def Tree.remove_node_by_id (t : Tree) (id : String) : Bool × Tree :=
  if (lookupA t.nodes id).isSome then
    (true, { t with nodes := eraseKeyA t.nodes id, root := if t.root = id then "" else t.root })
  else (false, t)

/-- Worklist walk that fails (returns none) as soon as it pops an id that
does not resolve to a node: used by the atomic recursive removal, which
must fail wholesale when any descendant reference is dangling. -/
def collectF (ns : List (String × Node)) : Nat → List String → List String → Option (List String)
  | _, vis, [] => some vis
  | 0, _, _ => none
  | f + 1, vis, i :: st =>
    if i ∈ vis then collectF ns f vis st
    else match lookupA ns i with
      | none => none
      | some n => collectF ns f (i :: vis) (n.children ++ st)

/-- Modelled from the spec: recursively remove the node with the given id
and every reachable descendant; fail atomically (no removal at all) when
the starting id is absent or any descendant reference does not resolve;
clear the root when the starting id was the root. -/
def Tree.remove_node_and_children_by_id (t : Tree) (id : String) : Bool × Tree :=
  match collectF t.nodes (walkPot t.nodes [] [id]) [] [id] with
  | none => (false, t)
  | some l =>
    (true, { t with
               nodes := t.nodes.filter (fun p => decide (p.1 ∉ l)),
               root := if t.root = id then "" else t.root })

/-- Modelled from the spec: walk the subtree rooted at the given id and,
for every visited node except the id itself, set the ROLE property to the
given value; a no-op when the id is absent. -/
def Tree.propagate_role (t : Tree) (id role : String) : Tree :=
  if (lookupA t.nodes id).isNone then t
  else
    let vs := t.walk id
    { t with
        nodes := t.nodes.map
          (fun p => (p.1, if p.1 ∈ vs ∧ p.1 ≠ id then p.2.add_property "ROLE" (.str role) else p.2)) }

/-- Modelled from the spec: walk the subtree rooted at the given id and
remove the ROLE property from every visited node except the id itself,
leaving other properties intact; a no-op when the id is absent. -/
def Tree.remove_propagation (t : Tree) (id : String) : Tree :=
  if (lookupA t.nodes id).isNone then t
  else
    let vs := t.walk id
    { t with
        nodes := t.nodes.map
          (fun p => (p.1, if p.1 ∈ vs ∧ p.1 ≠ id then p.2.remove_property "ROLE" else p.2)) }

/-- Modelled from the spec: remove every node strictly below the given id
(not the id itself), clearing its children list; a no-op when the id is
absent. -/
def Tree.remove_subtree (t : Tree) (id : String) : Tree :=
  if (lookupA t.nodes id).isNone then t
  else
    let w := t.walk id
    { t with
        nodes := (t.nodes.filter (fun p => decide (p.1 = id ∨ p.1 ∉ w))).map
          (fun p => (p.1, if p.1 = id then { p.2 with children := [] } else p.2)) }

/-- Rename ids through a partial mapping, defaulting to the original. -/
def mapId (m : List (String × String)) (i : String) : String := (lookupA m i).getD i

/-- Deep copy of the listed subtree ids out of an arena, renaming every
copied node and its internal child references through the mapping. -/
def copySubtree (ns : List (String × Node)) (sub : List String) (m : List (String × String)) :
    List (String × Node) :=
  sub.filterMap (fun old => (lookupA ns old).map (fun n =>
    (mapId m old, { n with id := mapId m old, children := n.children.map (mapId m) })))

/-- Id mapping for a subtree copy: the subtree root keeps the target id,
every other copied node takes the next id from the fresh supply. -/
def freshMap (src target : String) : List String → List String → List (String × String)
  | [], _ => []
  | i :: rest, fresh =>
    if i = src then (i, target) :: freshMap src target rest fresh
    else match fresh with
      | f :: fs => (i, f) :: freshMap src target rest fs
      | [] => (i, i) :: freshMap src target rest []

/-- Modelled from the spec: replace the subtree currently rooted at
target_id in this tree with a deep copy of the other tree's subtree
rooted at source_id, assigning freshly generated ids (drawn from the
supply) to every copied node except the top one, which reuses target_id
so existing parent references remain valid; a no-op when target_id is
absent from this tree or source_id is absent from the other tree. -/
def Tree.update_subtree (t other : Tree) (target_id source_id : String) (fresh : List String) :
    Tree :=
  if (lookupA t.nodes target_id).isNone ∨ (lookupA other.nodes source_id).isNone then t
  else
    let removed := t.walk target_id
    let sub := other.walk source_id
    let m := freshMap source_id target_id sub fresh
    { t with nodes := t.nodes.filter (fun p => decide (p.1 ∉ removed)) ++ copySubtree other.nodes sub m }

/-- Modelled from the spec: the first node whose children list contains
the given id, or none for the root or an unreachable node. -/
def Tree.find_parent_node_if_exists (t : Tree) (id : String) : Option Node :=
  (t.nodes.find? (fun p => p.2.children.contains id)).map Prod.snd

/-- The role attribute of a node, when present with a string value. -/
def roleOf (n : Node) : Option String :=
  match lookupA n.attributes "role" with
  | some (.str r) => some r
  | _ => none

/-- Upward walk for the role anchor, with fuel bounding the parent-chain
length. -/
def aboveF (t : Tree) : Nat → String → Option Node
  | 0, _ => none
  | f + 1, id =>
    match lookupA t.nodes id with
    | none => none
    | some n =>
      if (roleOf n).isSome then some n
      else match t.find_parent_node_if_exists id with
        | none => none
        | some p => aboveF t f p.id

/-- Modelled from the spec: walk upward via parent links from the node
(itself included) until a node carrying a role attribute is found, or
none if the root is reached first. -/
def Tree.find_role_subtree_node_above_node (t : Tree) (id : String) : Option Node :=
  aboveF t (t.nodes.length + 1) id

/-- Modelled from the spec: every node of the subtree below (and
including) the given node, via a visited-set walk that terminates under
cycles and skips dangling child ids. -/
def Tree.find_role_subtree_nodes_below_node (t : Tree) (id : String) : List Node :=
  (t.walk id).filterMap (fun i => lookupA t.nodes i)

/-- The nodes of the arena carrying the given role attribute value, in
arena order. -/
def Tree.anchor_sites (t : Tree) (role : String) : List Node :=
  (t.nodes.filter (fun p => roleOf p.2 == some role)).map Prod.snd

/-- Modelled from the spec: scan the whole tree for every node whose role
attribute equals the given role name and, for each match, return the
anchor together with the nodes of its attached role subtree, the subtree
of the child reachable via that anchor. -/
def Tree.find_role_subtree_nodes_if_exist (t : Tree) (role : String) : List Node :=
  (t.anchor_sites role).foldr
    (fun a acc =>
      (a :: (match a.children with
             | [] => []
             | c :: _ => t.find_role_subtree_nodes_below_node c)) ++ acc) []

/-- Modelled from the spec: replace the local role-subtree instance under
one anchor node with a fresh copy of the source subtree: every node
strictly below the anchor is dropped, the anchor keeps its id and
attributes and gets the copy root as its single child, and every copied
node receives a new id from the fresh supply; returns the updated tree
and the remaining supply. -/
def Tree.replace_anchor_subtree (t : Tree) (anchor_id : String) (src : Tree) (sub_root : String)
    (fresh : List String) : Tree × List String :=
  match lookupA t.nodes anchor_id with
  | none => (t, fresh)
  | some a =>
    let sub := src.walk sub_root
    let m := (sub.zip (fresh.take sub.length))
    let below := t.walk anchor_id
    let t' := { t with
        nodes := ((t.nodes.filter (fun p => decide (p.1 = anchor_id ∨ p.1 ∉ below))).map
            (fun p => (p.1, if p.1 = anchor_id then { a with children := [mapId m sub_root] } else p.2)))
          ++ copySubtree src.nodes sub m }
    (t', fresh.drop sub.length)

/-- Modelled from the spec: refresh every reference site of the given
role inside one tree, threading the fresh-id supply through the anchors
in arena order. -/
def Tree.update_role_sites (t : Tree) (role_name : String) (src : Tree) (sub_root : String)
    (fresh : List String) : Tree :=
  (((t.nodes.filter (fun p => roleOf p.2 == some role_name)).map Prod.fst).foldl
    (fun acc aid => Tree.replace_anchor_subtree acc.1 aid src sub_root acc.2) (t, fresh)).1

/-- Modelled from the spec: the two-level registry of Trees, grouped by
category and file name, with the optional directory location it was
loaded from. -/
structure Collection where
  collection : List (String × List (String × Tree))
  path : Option String := none

/-- Modelled from the spec: scan all categories for a tree with the given
name. -/
def Collection.get_tree_by_name (c : Collection) (name : String) : Option Tree :=
  ((c.collection.foldr (fun cf acc => cf.2 ++ acc) []).find? (fun p => p.2.name == name)).map
    Prod.snd

/-- Modelled from the spec: the cross-tree propagation protocol.  The
edited source tree is identified by its category and file name, the edit
start by the changed node id (defaulting to the source root).  When the
source is a role tree, its name and whole subtree propagate; otherwise
the role anchor above the changed node determines the role name and the
anchor's child subtree, and propagation is skipped entirely when no
anchor is found above the changed node or the found role subtree has no
children.  Every other entry of the collection has each of its reference
sites replaced by a fresh copy; the source's own entry is never
touched. -/
def Collection.update_subtrees_in_collection (c : Collection) (cat file : String)
    (changed : Option String) (fresh : List String) : Collection :=
  match (lookupA c.collection cat).bind (fun files => lookupA files file) with
  | none => c
  | some source =>
    let changed_id := changed.getD source.root
    let info : Option (String × String) :=
      if cat = "roles" then some (source.name, source.root)
      else match source.find_role_subtree_node_above_node changed_id with
        | none => none
        | some a =>
          match a.children with
          | [] => none
          | ch :: _ => (roleOf a).map (fun r => (r, ch))
    match info with
    | none => c
    | some rs =>
      { c with
          collection := c.collection.map (fun cf =>
            (cf.1, cf.2.map (fun ft =>
              (ft.1, if cf.1 = cat ∧ ft.1 = file then ft.2
                     else ft.2.update_role_sites rs.1 source rs.2 fresh)))) }

/-- Fuel bound for the cycle-detection walk: every step strictly
decreases this potential. -/
def cycPot (ns : List (String × Node)) (path vis : List String)
    (work : List (Sum String String)) : Nat :=
  work.length + ((keyList ns).countP (fun k => decide (k ∉ vis ∧ k ∉ path))) * (totalChildren ns + 2)

/-- Depth-first cycle search with an explicit enter/exit work stack: an
inl item enters an id, an inr item finishes the corresponding id, popping
it from the current path into the visited set.  A popped id already on
the current path is a back-edge and is recorded as a violation; an id
already fully visited via another path is skipped and not re-flagged;
a dangling id is skipped.  Fuel makes the recursion structural; the
initial potential is always enough, so the search cannot loop. -/
def cycF (ns : List (String × Node)) :
    Nat → List String → List String → List (Sum String String) → List String →
    Option (List String × List String)
  | _, _, vis, [], vios => some (vis, vios)
  | 0, _, _, _, _ => none
  | f + 1, path, vis, .inr i :: work, vios => cycF ns f path.tail (i :: vis) work vios
  | f + 1, path, vis, .inl i :: work, vios =>
    if i ∈ path then cycF ns f path vis work (vios ++ [i])
    else if i ∈ vis then cycF ns f path vis work vios
    else match lookupA ns i with
      | none => cycF ns f path vis work vios
      | some n => cycF ns f (i :: path) vis (n.children.map .inl ++ .inr i :: work) vios

/-- Modelled from the spec: DFS from the root following children; a
back-edge to a node already on the current path is a cycle violation, a
node already fully visited via another path is not re-flagged.  Returns
the violation list; the some wrapper witnesses that the a-priori fuel
bound sufficed (it always does, which is the no-infinite-loop
guarantee). -/
def Verification.contains_cycles (t : Tree) : Option (List String) :=
  (cycF t.nodes (cycPot t.nodes [] [] [.inl t.root]) [] [] [.inl t.root] []).map Prod.snd

/-- A two-node tree used as a concrete witness input. -/
def twoNodeTree : Tree :=
  { name := "TwoNode", title := "TwoNode",
    nodes := [("r", { title := "Sequence", id := "r", children := ["a"] }),
              ("a", { title := "Skill", id := "a" })],
    root := "r" }

/-- Executable check that every node of the subtree rooted at the given
id has only resolvable child references (used to state when the atomic
recursive removal succeeds). -/
def allResolvable (t : Tree) (id : String) : Bool :=
  (t.walk id).all (fun x => match lookupA t.nodes x with
    | some n => n.children.all (fun c => resolvesB t.nodes c)
    | none => false)

/-- A tree with an unreachable extra node whose child reference dangles:
the shape exercised by the removal test. -/
def danglingChildTree : Tree :=
  { name := "Dangling", title := "Dangling",
    nodes := [("r", { title := "Sequence", id := "r", children := ["a", "b"] }),
              ("a", { title := "Skill", id := "a" }),
              ("b", { title := "Skill", id := "b" }),
              ("tn", { title := "test_node", id := "tn", children := ["missing"] })],
    root := "r" }

/-- Modelled from the spec: the EnterFormationTactic example tree of the
test fixtures (the fixture file is not in the source tree).  Two anchor
nodes carry the role attribute EnterFormationRole; the first anchor also
has a second child outside its attached role subtree. -/
def eftAnchor1 : Node :=
  { title := "Role", id := "0ia3adfsyai4m",
    attributes := [("role", .str "EnterFormationRole")],
    children := ["c1", "3j1eplzumct1ky2l"] }

def eftAnchor2 : Node :=
  { title := "Role", id := "mz9t0qn1r1brww",
    attributes := [("role", .str "EnterFormationRole")],
    children := ["c3"] }

def eftRoot : Node :=
  { title := "Sequence", id := "rt", children := ["0ia3adfsyai4m", "mz9t0qn1r1brww"] }

def enterFormationTactic : Tree :=
  { name := "EnterFormationTactic", title := "EnterFormationTactic",
    root := "rt",
    nodes := [
      ("rt", eftRoot),
      ("0ia3adfsyai4m", eftAnchor1),
      ("c1", { title := "Sequence", id := "c1", children := ["c2"] }),
      ("c2", { title := "EnterFormation", id := "c2", children := ["c2x"] }),
      ("c2x", { title := "Skill", id := "c2x" }),
      ("3j1eplzumct1ky2l", { title := "Condition", id := "3j1eplzumct1ky2l" }),
      ("mz9t0qn1r1brww", eftAnchor2),
      ("c3", { title := "Sequence", id := "c3", children := ["c4"] }),
      ("c4", { title := "EnterFormation", id := "c4" })] }

/-- A tree with one node's children extended by one extra id: the shape
of the dangling-reference robustness test. -/
def withDanglingChild (t : Tree) (n : Node) (d : String) : Tree :=
  { t with nodes := insertA t.nodes n.id (n.add_child d) }

/-- A four-node tree shaped like the demo strategy fixture. -/
def fourNodeTree : Tree :=
  { name := "FourNode", title := "FourNode",
    root := "t1",
    nodes := [
      ("t1", { title := "Repeater", id := "t1", children := ["t2"] }),
      ("t2", { title := "ParallelSequence", id := "t2", children := ["t3", "t4"] }),
      ("t3", { title := "Skill", id := "t3" }),
      ("t4", { title := "Skill", id := "t4" })] }

/-- A two-node tree used as a subtree-replacement source. -/
def twoNodeSource : Tree :=
  { name := "TwoNodeSource", title := "TwoNodeSource",
    root := "s1",
    nodes := [
      ("s1", { title := "Sequence", id := "s1", children := ["s2"] }),
      ("s2", { title := "Skill", id := "s2" })] }

/-- A role tree with two nodes, the shape of the propagation scenario. -/
def roleR : Tree :=
  { name := "R", title := "R", root := "r1",
    nodes := [
      ("r1", { title := "RSeq", id := "r1", children := ["r2"] }),
      ("r2", { title := "EnterFormation", id := "r2" })] }

/-- The anchor node referencing the role tree by name. -/
def anchorN : Node :=
  { title := "Role", id := "N", attributes := [("role", .str "R")], children := ["c0"] }

/-- A tree containing the anchor with a stale one-node copy of the role
subtree under it. -/
def treeT : Tree :=
  { name := "T", title := "T", root := "n0",
    nodes := [
      ("n0", { title := "Sequence", id := "n0", children := ["N"] }),
      ("N", anchorN),
      ("c0", { title := "OldCopy", id := "c0" })] }

/-- The propagation scenario collection: the role tree in the roles
category and the referencing tree in the tactics category. -/
def scenarioCollection : Collection :=
  { collection := [("roles", [("R.json", roleR)]), ("tactics", [("T.json", treeT)])] }

/-- A collection whose strategy tree has no role anchor at all. -/
def demoCollection : Collection :=
  { collection := [("strategies", [("FourNode.json", fourNodeTree)]),
                   ("roles", [("Two.json", twoNodeSource)])] }

/-- A childless role anchor. -/
def bareAnchor : Node :=
  { title := "Role", id := "an", attributes := [("role", .str "TwoNodeSource")] }

/-- A strategy tree whose role anchor has no children. -/
def anchoredTree : Tree :=
  { name := "Anchored", title := "Anchored", root := "a1",
    nodes := [
      ("a1", { title := "Sequence", id := "a1", children := ["an"] }),
      ("an", bareAnchor)] }

/-- A collection containing the childless-anchor strategy tree. -/
def anchoredCollection : Collection :=
  { collection := [("strategies", [("Anchored.json", anchoredTree)]),
                   ("roles", [("Two.json", twoNodeSource)])] }

/-- The expected shape of the referencing tree after the scenario
propagation with fresh ids f1 and f2. -/
def scenarioResultTree (f1 f2 : String) : Tree :=
  { name := "T", title := "T", root := "n0",
    nodes := [
      ("n0", { title := "Sequence", id := "n0", children := ["N"] }),
      ("N", { title := "Role", id := "N",
              attributes := [("role", .str "R")], children := [f2] }),
      (f1, { title := "EnterFormation", id := f1 }),
      (f2, { title := "RSeq", id := f2, children := [f1] })] }

/-- Whether a JSON value is a string literal. -/
def isStrB : Json → Bool
  | .str _ => true
  | _ => false

/-- The id field of a raw node document, when present as a string. -/
def docId : Json → Option String
  | .obj kvs =>
    match lookupA kvs "id" with
    | some (.str i) => some i
    | _ => none
  | _ => none

/-- A valid node document in the sense of the external interface: exactly
the keys id and title (strings) plus an optional non-empty attributes map
and an optional non-empty children array of strings, with no duplicate
keys — the minimal-key omission policy of the serializer. -/
def validNodeDocB (d : Json) : Bool :=
  match d with
  | .obj kvs =>
    decide (NodupKeys kvs)
    && (keysA kvs).all (fun k => decide (k ∈ (["id", "title", "attributes", "children"] : List String)))
    && (match lookupA kvs "id" with
        | some (.str _) => true
        | _ => false)
    && (match lookupA kvs "title" with
        | some (.str _) => true
        | _ => false)
    && (match lookupA kvs "attributes" with
        | some (.obj a) => !a.isEmpty
        | none => true
        | some _ => false)
    && (match lookupA kvs "children" with
        | some (.arr cs) => !cs.isEmpty && cs.all isStrB
        | none => true
        | some _ => false)
  | _ => false

/-- A valid tree document: the data wrapper holding string name and
title and a trees array with exactly one entry, whose nodes array is a
non-empty list of valid node documents with pairwise distinct ids and
whose root is a string; no duplicate or stray keys at any level. -/
def validTreeDocB (d : Json) : Bool :=
  match d with
  | .obj [("data", .obj dd)] =>
    decide (NodupKeys dd)
    && (keysA dd).all (fun k => decide (k ∈ (["name", "title", "trees"] : List String)))
    && (match lookupA dd "name" with
        | some (.str _) => true
        | _ => false)
    && (match lookupA dd "title" with
        | some (.str _) => true
        | _ => false)
    && (match lookupA dd "trees" with
        | some (.arr [.obj e]) =>
          decide (NodupKeys e)
          && (keysA e).all (fun k => decide (k ∈ (["nodes", "root"] : List String)))
          && (match lookupA e "root" with
              | some (.str _) => true
              | _ => false)
          && (match lookupA e "nodes" with
              | some (.arr docs) =>
                !docs.isEmpty && docs.all validNodeDocB
                  && decide ((docs.filterMap docId).Nodup)
              | _ => false)
        | _ => false)
  | _ => false

/-- No exit marker in a work-stack segment. -/
def noInr (l : List (Sum String String)) : Prop := ∀ x : String, Sum.inr x ∉ l

/-- The exit markers of a work stack, in order: they always spell out the
current DFS path. -/
def inrsOf : List (Sum String String) → List String
  | [] => []
  | .inl _ :: rest => inrsOf rest
  | .inr i :: rest => i :: inrsOf rest

/-- A visit list is topologically sorted when every resolvable child of
an element appears strictly later in the list: the exit order of a
completed DFS with no back-edges. -/
def TopSorted (ns : List (String × Node)) : List String → Prop
  | [] => True
  | i :: vis => (∀ c, EdgeN ns i c → resolvesB ns c = true → c ∈ vis) ∧ TopSorted ns vis

/-- The DFS path is a chain: consecutive elements are linked by child
edges upward, and the bottom element is reachable from the root. -/
def ChainTo (ns : List (String × Node)) (root : String) : List String → Prop
  | [] => True
  | [p] => ReachN ns root p
  | p :: q :: rest => EdgeN ns q p ∧ ChainTo ns root (q :: rest)

/-- Structural invariant of the cycle-search work stack: segments of
pending child entries separated by exit markers, one marker per path
element in order; every pending entry in a segment is a child of that
segment's path element, and entries of the bottom segment are reachable
from the root. -/
inductive WInv (ns : List (String × Node)) (root : String) :
    List (Sum String String) → List String → Prop
  | base : ∀ B, noInr B → (∀ c, Sum.inl c ∈ B → ReachN ns root c) → WInv ns root B []
  | step : ∀ B p work path, noInr B → (∀ c, Sum.inl c ∈ B → EdgeN ns p c) →
      WInv ns root work path → WInv ns root (B ++ Sum.inr p :: work) (p :: path)

/-- Bookkeeping invariant of the cycle search for the no-violation
analysis: on top of the stack structure, every resolvable child of a path
element is already visited, still pending in that element's own segment,
or is an element open above it (the above list, empty for the path head);
so when an element exits with no recorded violation, all its resolvable
children are visited. -/
inductive SegInv (ns : List (String × Node)) (root : String) (vis : List String) :
    List String → List (Sum String String) → List String → Prop
  | base : ∀ above B, noInr B → (∀ c, Sum.inl c ∈ B → ReachN ns root c) →
      SegInv ns root vis above B []
  | step : ∀ above B p work path, noInr B →
      (∀ c, Sum.inl c ∈ B → EdgeN ns p c) →
      (∀ c, EdgeN ns p c → resolvesB ns c = true → c ∈ vis ∨ Sum.inl c ∈ B ∨ c ∈ above) →
      SegInv ns root vis (above ++ [p]) work path →
      SegInv ns root vis above (B ++ Sum.inr p :: work) (p :: path)

/-- A two-node tree whose nodes reference each other: the cyclic fixture
of the test suite. -/
def cyclicTree : Tree :=
  { name := "Cyclic", title := "Cyclic",
    nodes := [("r", { title := "Sequence", id := "r", children := ["a"] }),
              ("a", { title := "Sequence", id := "a", children := ["r"] })],
    root := "r" }

/-- A diamond: two paths to a shared node, acyclic; the shared node is
visited once via each path but never flagged. -/
def diamondTree : Tree :=
  { name := "Diamond", title := "Diamond",
    nodes := [("r", { title := "Sequence", id := "r", children := ["x", "y"] }),
              ("x", { title := "Sequence", id := "x", children := ["s"] }),
              ("y", { title := "Sequence", id := "y", children := ["s"] }),
              ("s", { title := "Skill", id := "s" })],
    root := "r" }

/-- The arena entry a single valid node document parses to (proof-layer
companion of parseNodes; the fallback is never reached on valid input). -/
def parseEntry (d : Json) : String × Node :=
  match Node.from_json d with
  | some n => (n.id, n)
  | none => ("", { title := "", id := "" })

/-- A concrete node document with shuffled keys, non-empty attributes and
children: a round-trip witness input. -/
def permNodeDoc : Json :=
  .obj [("title", .str "Sequence"), ("children", .arr [.str "c1", .str "c2"]),
        ("id", .str "n1"), ("attributes", .obj [("x", .num 1)])]

/-- A concrete tree document with shuffled keys at every level, holding
one full node document and one minimal one: a round-trip witness input. -/
def permTreeDoc : Json :=
  .obj [("data", .obj
    [("title", .str "Demo"),
     ("trees", .arr [.obj
       [("root", .str "n1"),
        ("nodes", .arr [permNodeDoc, .obj [("id", .str "c1"), ("title", .str "Leaf")]])]]),
     ("name", .str "demo.json")])]

-- ===== association-list lemmas =====

theorem lookupA_insertA_self {α : Type} (l : List (String × α)) (k : String) (v : α) :
    lookupA (insertA l k v) k = some v := by
  induction l with
  | nil => simp [insertA, lookupA]
  | cons p rest ih =>
    obtain ⟨k', w⟩ := p
    by_cases h : k = k' <;> simp [insertA, lookupA, h, ih]

theorem lookupA_insertA_ne {α : Type} (l : List (String × α)) (k k' : String) (v : α)
    (h : k' ≠ k) : lookupA (insertA l k v) k' = lookupA l k' := by
  induction l with
  | nil => simp [insertA, lookupA, h]
  | cons p rest ih =>
    obtain ⟨k₀, w⟩ := p
    by_cases hk : k = k₀
    · subst hk; simp [insertA, lookupA, h]
    · by_cases hk' : k' = k₀ <;> simp [insertA, lookupA, hk, hk', ih]

theorem lookupA_eraseKeyA_self {α : Type} (l : List (String × α)) (k : String) :
    lookupA (eraseKeyA l k) k = none := by
  induction l with
  | nil => simp [eraseKeyA, lookupA]
  | cons p rest ih =>
    obtain ⟨k₀, w⟩ := p
    by_cases h : k = k₀
    · subst h; simpa [eraseKeyA] using ih
    · simp [eraseKeyA, lookupA, h, ih]

theorem lookupA_eraseKeyA_ne {α : Type} (l : List (String × α)) (k k' : String)
    (h : k' ≠ k) : lookupA (eraseKeyA l k) k' = lookupA l k' := by
  induction l with
  | nil => simp [eraseKeyA, lookupA]
  | cons p rest ih =>
    obtain ⟨k₀, w⟩ := p
    by_cases hk : k = k₀
    · subst hk; simp [eraseKeyA, lookupA, h, ih]
    · by_cases hk' : k' = k₀ <;> simp [eraseKeyA, lookupA, hk, hk', ih]

theorem mem_of_lookupA {α : Type} {l : List (String × α)} {k : String} {v : α}
    (h : lookupA l k = some v) : (k, v) ∈ l := by
  induction l with
  | nil => simp [lookupA] at h
  | cons p rest ih =>
    obtain ⟨k₀, w⟩ := p
    by_cases hk : k = k₀
    · subst hk; simp [lookupA] at h; simp [h]
    · simp [lookupA, hk] at h
      exact List.mem_cons_of_mem _ (ih h)

theorem keysA_cons {α : Type} (p : String × α) (l : List (String × α)) :
    keysA (p :: l) = p.1 :: keysA l := rfl

theorem lookupA_isSome_iff_mem_keys {α : Type} (l : List (String × α)) (k : String) :
    (lookupA l k).isSome = true ↔ k ∈ keysA l := by
  induction l with
  | nil => simp [lookupA, keysA]
  | cons p rest ih =>
    obtain ⟨k₀, w⟩ := p
    by_cases hk : k = k₀ <;> simp [lookupA, keysA_cons, hk, ih]

theorem lookupA_eq_none_of_not_mem_keys {α : Type} {l : List (String × α)} {k : String}
    (h : k ∉ keysA l) : lookupA l k = none := by
  cases hl : lookupA l k with
  | none => rfl
  | some v =>
    exact absurd ((lookupA_isSome_iff_mem_keys l k).mp (by simp [hl])) h

theorem lookupA_of_mem_nodup {α : Type} {l : List (String × α)} {k : String} {v : α}
    (hn : NodupKeys l) (h : (k, v) ∈ l) : lookupA l k = some v := by
  induction l with
  | nil => simp at h
  | cons p rest ih =>
    obtain ⟨k₀, w⟩ := p
    have hn2 := List.nodup_cons.mp (by simpa [NodupKeys, keysA_cons] using hn)
    rcases List.mem_cons.mp h with h1 | h1
    · cases h1
      simp [lookupA]
    · have hk : k ≠ k₀ := by
        intro hkk
        subst hkk
        exact hn2.1 (List.mem_map_of_mem Prod.fst h1)
      simp only [lookupA, if_neg hk]
      exact ih hn2.2 h1

-- ===== walk characterization =====

theorem mem_keys_of_lookupA {α : Type} {l : List (String × α)} {k : String} {v : α}
    (h : lookupA l k = some v) : k ∈ keysA l :=
  (lookupA_isSome_iff_mem_keys l k).mp (by simp [h])

theorem unvisited_le {ns : List (String × Node)} {vis : List String} (i : String) :
    unvisitedCount ns (i :: vis) ≤ unvisitedCount ns vis := by
  refine List.countP_mono_left ?_
  intro k _ hk
  simp only [decide_eq_true_eq] at hk ⊢
  intro hm
  exact hk (List.mem_cons_of_mem _ hm)

theorem countP_unvis_le (l vis : List String) (i : String) :
    l.countP (fun k => decide (k ∉ i :: vis)) ≤ l.countP (fun k => decide (k ∉ vis)) := by
  refine List.countP_mono_left ?_
  intro k _ hk
  simp only [decide_eq_true_eq] at hk ⊢
  intro hm
  exact hk (List.mem_cons_of_mem _ hm)

theorem countP_unvis_lt {l vis : List String} {i : String}
    (hmem : i ∈ l) (hvis : i ∉ vis) :
    l.countP (fun k => decide (k ∉ i :: vis)) < l.countP (fun k => decide (k ∉ vis)) := by
  induction l with
  | nil => simp at hmem
  | cons a l ih =>
    simp only [List.countP_cons]
    by_cases hai : a = i
    · subst hai
      have h1 : (decide (a ∉ a :: vis)) = false := by simp
      have h2 : (decide (a ∉ vis)) = true := by simpa using hvis
      have hle := countP_unvis_le l vis a
      rw [h1, h2]
      simp only [Bool.false_eq_true, if_false, if_true]
      omega
    · have hmem' : i ∈ l := by
        rcases List.mem_cons.mp hmem with h | h
        · exact absurd h (fun hh => hai hh.symm)
        · exact h
      have hlt := ih hmem'
      have hpt : (if (decide (a ∉ i :: vis)) = true then 1 else 0) ≤
          (if (decide (a ∉ vis)) = true then 1 else 0) := by
        by_cases hav : a ∈ vis <;> simp [hav, hai]
      omega

theorem unvisited_lt {ns : List (String × Node)} {vis : List String} {i : String}
    (hmem : i ∈ keyList ns) (hvis : i ∉ vis) :
    unvisitedCount ns (i :: vis) < unvisitedCount ns vis :=
  countP_unvis_lt hmem hvis

theorem children_le_totalChildren {ns : List (String × Node)} {i : String} {n : Node}
    (h : lookupA ns i = some n) : n.children.length ≤ totalChildren ns := by
  have hm := mem_of_lookupA h
  have hmm : n.children.length ∈ ns.map (fun p => p.2.children.length) :=
    List.mem_map_of_mem (fun p : String × Node => p.2.children.length) hm
  exact List.single_le_sum (fun x _ => Nat.zero_le x) _ hmm

theorem walkPot_visit {ns : List (String × Node)} {vis st : List String} {i : String} {n : Node}
    (hvis : i ∉ vis) (h : lookupA ns i = some n) :
    walkPot ns (i :: vis) (n.children ++ st) + 1 ≤ walkPot ns vis (i :: st) := by
  have h1 : unvisitedCount ns (i :: vis) < unvisitedCount ns vis :=
    unvisited_lt (mem_keys_of_lookupA h) hvis
  have h2 : n.children.length ≤ totalChildren ns := children_le_totalChildren h
  simp only [walkPot, List.length_append, List.length_cons]
  have h3 : unvisitedCount ns (i :: vis) * (totalChildren ns + 1) + (totalChildren ns + 1) ≤
      unvisitedCount ns vis * (totalChildren ns + 1) := by
    calc unvisitedCount ns (i :: vis) * (totalChildren ns + 1) + (totalChildren ns + 1)
        = (unvisitedCount ns (i :: vis) + 1) * (totalChildren ns + 1) := by ring
      _ ≤ unvisitedCount ns vis * (totalChildren ns + 1) :=
          Nat.mul_le_mul_right _ (by omega)
  omega

/-- Soundness of the visited-set walk, for any fuel: every id it returns
was already visited or is a resolvable id reachable from the stack. -/
theorem walkF_sound {ns : List (String × Node)} :
    ∀ (f : Nat) (vis st : List String) (x : String), x ∈ walkF ns f vis st →
      x ∈ vis ∨ (resolvesB ns x = true ∧ ∃ s ∈ st, ReachN ns s x) := by
  intro f
  induction f with
  | zero => intro vis st x hx; exact Or.inl hx
  | succ f ih =>
    intro vis st x hx
    cases st with
    | nil => exact Or.inl hx
    | cons i st' =>
      by_cases hi : i ∈ vis
      · rcases ih vis st' x (by simpa [walkF, hi] using hx) with h | ⟨hr, s, hs, hre⟩
        · exact Or.inl h
        · exact Or.inr ⟨hr, s, List.mem_cons_of_mem _ hs, hre⟩
      · cases hl : lookupA ns i with
        | none =>
          rcases ih vis st' x (by simpa [walkF, hi, hl] using hx) with h | ⟨hr, s, hs, hre⟩
          · exact Or.inl h
          · exact Or.inr ⟨hr, s, List.mem_cons_of_mem _ hs, hre⟩
        | some n =>
          rcases ih (i :: vis) (n.children ++ st') x (by simpa [walkF, hi, hl] using hx)
            with h | ⟨hr, s, hs, hre⟩
          · rcases List.mem_cons.mp h with h1 | h1
            · refine Or.inr ⟨?_, i, List.mem_cons_self .., ?_⟩
              · simp [h1, resolvesB, hl]
              · rw [h1]
                exact Relation.ReflTransGen.refl
            · exact Or.inl h1
          · rcases List.mem_append.mp hs with h1 | h1
            · refine Or.inr ⟨hr, i, List.mem_cons_self .., ?_⟩
              exact Relation.ReflTransGen.head ⟨n, hl, h1⟩ hre
            · exact Or.inr ⟨hr, s, List.mem_cons_of_mem _ h1, hre⟩

/-- Post-conditions of the walk under sufficient fuel: the visited set is
preserved, every resolvable stack element ends up in the result, and the
newly collected part of the result is closed under resolvable child
references. -/
theorem walkF_post {ns : List (String × Node)} :
    ∀ (f : Nat) (vis st : List String), walkPot ns vis st ≤ f →
      (∀ v ∈ vis, v ∈ walkF ns f vis st) ∧
      (∀ i ∈ st, resolvesB ns i = true → i ∈ walkF ns f vis st) ∧
      (∀ x ∈ walkF ns f vis st, x ∉ vis →
        ∃ n, lookupA ns x = some n ∧
          ∀ c ∈ n.children, resolvesB ns c = true → c ∈ walkF ns f vis st) := by
  intro f
  induction f with
  | zero =>
    intro vis st hpot
    have hst : st = [] := by
      cases st with
      | nil => rfl
      | cons a l => simp [walkPot] at hpot
    subst hst
    refine ⟨fun v hv => hv, by simp, fun x hx hxv => absurd hx hxv⟩
  | succ f ih =>
    intro vis st hpot
    cases st with
    | nil =>
      refine ⟨fun v hv => hv, by simp, fun x hx hxv => absurd hx hxv⟩
    | cons i st' =>
      by_cases hi : i ∈ vis
      · have hstep : walkF ns (f + 1) vis (i :: st') = walkF ns f vis st' := by
          simp [walkF, hi]
        have hpot' : walkPot ns vis st' ≤ f := by
          simp only [walkPot, List.length_cons] at hpot ⊢; omega
        have H := ih vis st' hpot'
        rw [hstep]
        refine ⟨H.1, ?_, H.2.2⟩
        intro j hj hr
        rcases List.mem_cons.mp hj with h | h
        · exact h ▸ H.1 i hi
        · exact H.2.1 j h hr
      · cases hl : lookupA ns i with
        | none =>
          have hstep : walkF ns (f + 1) vis (i :: st') = walkF ns f vis st' := by
            simp [walkF, hi, hl]
          have hpot' : walkPot ns vis st' ≤ f := by
            simp only [walkPot, List.length_cons] at hpot ⊢; omega
          have H := ih vis st' hpot'
          rw [hstep]
          refine ⟨H.1, ?_, H.2.2⟩
          intro j hj hr
          rcases List.mem_cons.mp hj with h | h
          · subst h; simp [resolvesB, hl] at hr
          · exact H.2.1 j h hr
        | some n =>
          have hstep : walkF ns (f + 1) vis (i :: st') =
              walkF ns f (i :: vis) (n.children ++ st') := by
            simp [walkF, hi, hl]
          have hpot' : walkPot ns (i :: vis) (n.children ++ st') ≤ f := by
            have hv := @walkPot_visit ns vis st' i n hi hl
            omega
          have H := ih (i :: vis) (n.children ++ st') hpot'
          rw [hstep]
          refine ⟨?_, ?_, ?_⟩
          · intro v hv
            exact H.1 v (List.mem_cons_of_mem _ hv)
          · intro j hj hr
            rcases List.mem_cons.mp hj with h | h
            · exact h ▸ H.1 i (List.mem_cons_self ..)
            · exact H.2.1 j (List.mem_append_right _ h) hr
          · intro x hx hxv
            by_cases hxi : x = i
            · subst hxi
              refine ⟨n, hl, ?_⟩
              intro c hc hr
              exact H.2.1 c (List.mem_append_left _ hc) hr
            · obtain ⟨n', hn', hcl⟩ := H.2.2 x hx (by simp [hxi, hxv])
              exact ⟨n', hn', hcl⟩

theorem walkF_nil {ns : List (String × Node)} (f : Nat) (vis : List String) :
    walkF ns f vis [] = vis := by
  cases f <;> rfl

theorem walkF_start_dangling {ns : List (String × Node)} (f : Nat) {s : String}
    (h : lookupA ns s = none) : walkF ns f [] [s] = [] := by
  cases f with
  | zero => rfl
  | succ f => simp [walkF, h, walkF_nil]

theorem walk_dangling {t : Tree} {s : String} (h : lookupA t.nodes s = none) :
    t.walk s = [] :=
  walkF_start_dangling _ h

theorem walkF_nodup {ns : List (String × Node)} :
    ∀ (f : Nat) (vis st : List String), vis.Nodup → (walkF ns f vis st).Nodup := by
  intro f
  induction f with
  | zero => intro vis st h; exact h
  | succ f ih =>
    intro vis st h
    cases st with
    | nil => exact h
    | cons i st' =>
      by_cases hi : i ∈ vis
      · simpa [walkF, hi] using ih vis st' h
      · cases hl : lookupA ns i with
        | none => simpa [walkF, hi, hl] using ih vis st' h
        | some n =>
          simpa [walkF, hi, hl] using ih (i :: vis) (n.children ++ st') (by simp [h, hi])

theorem walk_nodup (t : Tree) (s : String) : (t.walk s).Nodup :=
  walkF_nodup _ _ _ List.nodup_nil

/-- Characterization of the subtree walk: it collects exactly the
resolvable ids reachable from the start by child references. -/
theorem walk_mem_iff (t : Tree) (s x : String) :
    x ∈ t.walk s ↔ resolvesB t.nodes x = true ∧ ReachN t.nodes s x := by
  constructor
  · intro hx
    rcases walkF_sound _ _ _ _ hx with h | ⟨hr, s', hs', hre⟩
    · simp at h
    · have : s' = s := List.mem_singleton.mp hs'
      exact ⟨hr, this ▸ hre⟩
  · rintro ⟨hr, hre⟩
    have H := @walkF_post t.nodes (walkPot t.nodes [] [s]) [] [s] (le_refl _)
    induction hre with
    | refl => exact H.2.1 s (List.mem_singleton_self _) hr
    | tail hab hbc ih =>
      rename_i b c
      obtain ⟨nb, hnb, hmem⟩ := hbc
      have hbres : resolvesB t.nodes b = true := by simp [resolvesB, hnb]
      have hbin : b ∈ t.walk s := ih hbres
      obtain ⟨nb', hnb', hcl⟩ := H.2.2 b hbin (by simp)
      have : nb' = nb := by rw [hnb] at hnb'; exact (Option.some.injEq .. ▸ hnb').symm
      subst this
      exact hcl c hmem hr

theorem lookupA_mapVal {α : Type} (l : List (String × α)) (g : String → α → α) (k : String) :
    lookupA (l.map (fun p => (p.1, g p.1 p.2))) k = (lookupA l k).map (g k) := by
  induction l with
  | nil => simp [lookupA]
  | cons p rest ih =>
    obtain ⟨k₀, v₀⟩ := p
    by_cases hk : k = k₀
    · subst hk; simp [lookupA]
    · simp [lookupA, hk, ih]

theorem add_property_props (n : Node) (k : String) (v : Json) :
    (n.add_property k v).properties = insertA n.properties k v := by
  simp [Node.add_property, Node.properties, lookupA_insertA_self]

-- ===== C7: properties replacement normal form =====

/-- C7: update_properties replaces the properties attribute entirely with
the given map; when the new map is empty the properties key itself is
deleted (whether or not it was present before), so absence — never an
empty map — represents "no properties"; every other attribute key is left
untouched. -/
theorem C7_update_properties (n : Node) (props : List (String × Json)) :
    (lookupA (n.update_properties props).attributes "properties"
      = if props.isEmpty then none else some (.obj props))
    ∧ (n.update_properties props).properties = props
    ∧ ∀ k, k ≠ "properties" →
        lookupA (n.update_properties props).attributes k = lookupA n.attributes k := by
  refine ⟨?_, ?_, ?_⟩
  · cases props with
    | nil => simp [Node.update_properties, lookupA_eraseKeyA_self]
    | cons p rest => simp [Node.update_properties, lookupA_insertA_self]
  · cases props with
    | nil => simp [Node.update_properties, Node.properties, lookupA_eraseKeyA_self]
    | cons p rest => simp [Node.update_properties, Node.properties, lookupA_insertA_self]
  · intro k hk
    cases props with
    | nil => simp [Node.update_properties, lookupA_eraseKeyA_ne _ _ _ hk]
    | cons p rest => simp [Node.update_properties, lookupA_insertA_ne _ _ _ _ hk]

/-- Witness for C7 at a concrete node: replacing with a one-entry map
stores it, replacing with the empty map deletes the key, and an unrelated
attribute key is untouched. -/
theorem C7_update_properties_witness :
    (lookupA (Node.update_properties
        { title := "node", id := "1", attributes := [("a", .bool true)] }
        [("b", .str "false")]).attributes "properties" = some (.obj [("b", .str "false")]))
    ∧ (Node.update_properties
        { title := "node", id := "1", attributes := [("a", .bool true)] }
        [("b", .str "false")]).properties = [("b", .str "false")]
    ∧ lookupA (Node.update_properties
        { title := "node", id := "1", attributes := [("a", .bool true)] }
        [("b", .str "false")]).attributes "a" = some (.bool true) := by
  have h := C7_update_properties
    { title := "node", id := "1", attributes := [("a", .bool true)] } [("b", .str "false")]
  exact ⟨h.1, h.2.1, h.2.2 "a" (by decide)⟩

-- ===== C5: role propagation =====

/-- C5: propagate_role is a no-op (tree unchanged) when the id is absent;
when the id is present, every node of the subtree rooted at the id except
the id itself gets its ROLE property set to the role value (and that
property then reads back as the role value), every node outside that
subtree — and the id's own node — is untouched, and the root and name of
the tree are unchanged. -/
theorem C5_propagate_role (t : Tree) (id role : String) :
    (lookupA t.nodes id = none → t.propagate_role id role = t)
    ∧ (∀ k, k ∈ t.walk id → k ≠ id → ∃ n0, lookupA t.nodes k = some n0 ∧
        lookupA (t.propagate_role id role).nodes k
          = some (n0.add_property "ROLE" (.str role))
        ∧ lookupA (n0.add_property "ROLE" (.str role)).properties "ROLE" = some (.str role))
    ∧ (∀ k, k ∉ t.walk id ∨ k = id →
        lookupA (t.propagate_role id role).nodes k = lookupA t.nodes k)
    ∧ (t.propagate_role id role).root = t.root
    ∧ (t.propagate_role id role).name = t.name := by
  refine ⟨?_, ?_, ?_, ?_, ?_⟩
  · intro h
    simp [Tree.propagate_role, h]
  · intro k hk hkid
    obtain ⟨hres, _⟩ := (walk_mem_iff t id k).mp hk
    obtain ⟨n0, hn0⟩ := Option.isSome_iff_exists.mp (by simpa [resolvesB] using hres)
    refine ⟨n0, hn0, ?_, ?_⟩
    · have hid : ¬(lookupA t.nodes id).isNone = true := by
        intro habs
        rw [walk_dangling (Option.isNone_iff_eq_none.mp habs)] at hk
        simp at hk
      simp only [Tree.propagate_role, hid, Bool.false_eq_true, if_false]
      rw [lookupA_mapVal t.nodes
        (fun a b => if a ∈ t.walk id ∧ a ≠ id then b.add_property "ROLE" (.str role) else b) k]
      simp [hn0, hk, hkid]
    · rw [add_property_props]
      simp [Node.properties, lookupA_insertA_self]
  · intro k hcond
    by_cases hid : (lookupA t.nodes id).isNone
    · simp [Tree.propagate_role, hid]
    · simp only [Tree.propagate_role, hid, Bool.false_eq_true, if_false]
      rw [lookupA_mapVal t.nodes
        (fun a b => if a ∈ t.walk id ∧ a ≠ id then b.add_property "ROLE" (.str role) else b) k]
      have : ¬(k ∈ t.walk id ∧ k ≠ id) := by
        rcases hcond with h | h
        · exact fun hc => h hc.1
        · exact fun hc => hc.2 h
      cases lookupA t.nodes k <;> simp [this]
  · by_cases hid : (lookupA t.nodes id).isNone <;> simp [Tree.propagate_role, hid]
  · by_cases hid : (lookupA t.nodes id).isNone <;> simp [Tree.propagate_role, hid]

/-- Witness for C5 on the two-node tree: the child of the root gets the
ROLE property, the root itself is untouched. -/
theorem C5_propagate_role_witness :
    (∃ n0, lookupA twoNodeTree.nodes "a" = some n0 ∧
      lookupA (twoNodeTree.propagate_role "r" "X").nodes "a"
        = some (n0.add_property "ROLE" (.str "X"))
      ∧ lookupA (n0.add_property "ROLE" (.str "X")).properties "ROLE" = some (.str "X"))
    ∧ lookupA (twoNodeTree.propagate_role "r" "X").nodes "r" = lookupA twoNodeTree.nodes "r" :=
  ⟨(C5_propagate_role twoNodeTree "r" "X").2.1 "a" (by decide) (by decide),
   (C5_propagate_role twoNodeTree "r" "X").2.2.1 "r" (Or.inr rfl)⟩

-- ===== C3: atomic subtree deletion =====

theorem lookupA_filter_not_mem {α : Type} (l : List (String × α)) (res : List String)
    (k : String) :
    lookupA (l.filter (fun p => decide (p.1 ∉ res))) k
      = if k ∈ res then none else lookupA l k := by
  induction l with
  | nil => by_cases hk : k ∈ res <;> simp [lookupA, hk]
  | cons p rest ih =>
    obtain ⟨k₀, v₀⟩ := p
    by_cases h₀ : k₀ ∈ res
    · have : (decide (k₀ ∉ res)) = false := by simpa using h₀
      rw [List.filter_cons, this]
      simp only [Bool.false_eq_true, if_false]
      rw [ih]
      by_cases hk : k ∈ res
      · simp [hk]
      · have hkk : k ≠ k₀ := fun h => hk (h ▸ h₀)
        simp [hk, lookupA, hkk]
    · have : (decide (k₀ ∉ res)) = true := by simpa using h₀
      rw [List.filter_cons, this]
      simp only [if_true]
      by_cases hkk : k = k₀
      · subst hkk
        simp [lookupA, h₀]
      · simp only [lookupA, if_neg hkk]
        exact ih

theorem collectF_start_dangling {ns : List (String × Node)} (f : Nat) {s : String}
    (h : lookupA ns s = none) : collectF ns f [] [s] = none := by
  cases f with
  | zero => rfl
  | succ f => simp [collectF, h]

/-- Post-conditions of the failing walk on success: the visited set and
every stack element are collected, and the newly collected part is closed
under all child references (which in particular all resolve). -/
theorem collectF_post {ns : List (String × Node)} :
    ∀ (f : Nat) (vis st res : List String), collectF ns f vis st = some res →
      (∀ v ∈ vis, v ∈ res) ∧ (∀ i ∈ st, i ∈ res) ∧
      (∀ x ∈ res, x ∉ vis →
        ∃ n, lookupA ns x = some n ∧ ∀ c ∈ n.children, c ∈ res) := by
  intro f
  induction f with
  | zero =>
    intro vis st res h
    cases st with
    | nil =>
      have : vis = res := by simpa [collectF] using h
      subst this
      exact ⟨fun v hv => hv, by simp, fun x hx hxv => absurd hx hxv⟩
    | cons i st' => simp [collectF] at h
  | succ f ih =>
    intro vis st res h
    cases st with
    | nil =>
      have : vis = res := by simpa [collectF] using h
      subst this
      exact ⟨fun v hv => hv, by simp, fun x hx hxv => absurd hx hxv⟩
    | cons i st' =>
      by_cases hi : i ∈ vis
      · have h' : collectF ns f vis st' = some res := by simpa [collectF, hi] using h
        obtain ⟨H1, H2, H3⟩ := ih vis st' res h'
        refine ⟨H1, ?_, H3⟩
        intro j hj
        rcases List.mem_cons.mp hj with hj1 | hj1
        · exact hj1 ▸ H1 i hi
        · exact H2 j hj1
      · cases hl : lookupA ns i with
        | none => simp [collectF, hi, hl] at h
        | some n =>
          have h' : collectF ns f (i :: vis) (n.children ++ st') = some res := by
            simpa [collectF, hi, hl] using h
          obtain ⟨H1, H2, H3⟩ := ih (i :: vis) (n.children ++ st') res h'
          refine ⟨?_, ?_, ?_⟩
          · intro v hv
            exact H1 v (List.mem_cons_of_mem _ hv)
          · intro j hj
            rcases List.mem_cons.mp hj with hj1 | hj1
            · exact hj1 ▸ H1 i (List.mem_cons_self ..)
            · exact H2 j (List.mem_append_right _ hj1)
          · intro x hx hxv
            by_cases hxi : x = i
            · subst hxi
              exact ⟨n, hl, fun c hc => H2 c (List.mem_append_left _ hc)⟩
            · exact H3 x hx (by simp [hxi, hxv])

/-- Soundness of the failing walk, for any fuel: everything collected was
already visited or is reachable from the stack. -/
theorem collectF_sound {ns : List (String × Node)} :
    ∀ (f : Nat) (vis st res : List String) (x : String), collectF ns f vis st = some res →
      x ∈ res → x ∈ vis ∨ ∃ s ∈ st, ReachN ns s x := by
  intro f
  induction f with
  | zero =>
    intro vis st res x h hx
    cases st with
    | nil => exact Or.inl ((by simpa [collectF] using h : vis = res) ▸ hx)
    | cons i st' => simp [collectF] at h
  | succ f ih =>
    intro vis st res x h hx
    cases st with
    | nil =>
      have : vis = res := by simpa [collectF] using h
      exact Or.inl (this ▸ hx)
    | cons i st' =>
      by_cases hi : i ∈ vis
      · rcases ih vis st' res x (by simpa [collectF, hi] using h) hx with h1 | ⟨s, hs, hre⟩
        · exact Or.inl h1
        · exact Or.inr ⟨s, List.mem_cons_of_mem _ hs, hre⟩
      · cases hl : lookupA ns i with
        | none => simp [collectF, hi, hl] at h
        | some n =>
          rcases ih (i :: vis) (n.children ++ st') res x (by simpa [collectF, hi, hl] using h) hx
            with h1 | ⟨s, hs, hre⟩
          · rcases List.mem_cons.mp h1 with h2 | h2
            · exact Or.inr ⟨i, List.mem_cons_self .., h2 ▸ Relation.ReflTransGen.refl⟩
            · exact Or.inl h2
          · rcases List.mem_append.mp hs with h2 | h2
            · exact Or.inr ⟨i, List.mem_cons_self ..,
                Relation.ReflTransGen.head ⟨n, hl, h2⟩ hre⟩
            · exact Or.inr ⟨s, List.mem_cons_of_mem _ h2, hre⟩

/-- The failing walk succeeds under sufficient fuel when everything
reachable from the stack resolves. -/
theorem collectF_isSome {ns : List (String × Node)} :
    ∀ (f : Nat) (vis st : List String), walkPot ns vis st ≤ f →
      (∀ i ∈ st, ∀ x, ReachN ns i x → resolvesB ns x = true) →
      (collectF ns f vis st).isSome = true := by
  intro f
  induction f with
  | zero =>
    intro vis st hpot hres
    have hst : st = [] := by
      cases st with
      | nil => rfl
      | cons a l => simp [walkPot] at hpot
    subst hst
    simp [collectF]

  | succ f ih =>
    intro vis st hpot hres
    cases st with
    | nil => simp [collectF]
    | cons i st' =>
      by_cases hi : i ∈ vis
      · have hpot' : walkPot ns vis st' ≤ f := by
          simp only [walkPot, List.length_cons] at hpot ⊢; omega
        have := ih vis st' hpot' (fun j hj => hres j (List.mem_cons_of_mem _ hj))
        simpa [collectF, hi] using this
      · cases hl : lookupA ns i with
        | none =>
          have := hres i (List.mem_cons_self ..) i Relation.ReflTransGen.refl
          simp [resolvesB, hl] at this
        | some n =>
          have hpot' : walkPot ns (i :: vis) (n.children ++ st') ≤ f := by
            have hv := @walkPot_visit ns vis st' i n hi hl
            omega
          have hres' : ∀ j ∈ n.children ++ st', ∀ x, ReachN ns j x → resolvesB ns x = true := by
            intro j hj x hre
            rcases List.mem_append.mp hj with h2 | h2
            · exact hres i (List.mem_cons_self ..) x
                (Relation.ReflTransGen.head ⟨n, hl, h2⟩ hre)
            · exact hres j (List.mem_cons_of_mem _ h2) x hre
          have := ih (i :: vis) (n.children ++ st') hpot' hres'
          simpa [collectF, hi, hl] using this

/-- A list of ids containing the start and closed under child references
contains everything reachable from the start. -/
theorem reach_mem_of_closed {ns : List (String × Node)} {res : List String} {id : String}
    (hid : id ∈ res)
    (hcl : ∀ x ∈ res, ∃ n, lookupA ns x = some n ∧ ∀ c ∈ n.children, c ∈ res) :
    ∀ x, ReachN ns id x → x ∈ res := by
  intro x hre
  induction hre with
  | refl => exact hid
  | tail hab hbc ih =>
    obtain ⟨nb, hnb, hmem⟩ := hbc
    obtain ⟨nb', hnb', hc⟩ := hcl _ ih
    have : nb' = nb := by rw [hnb] at hnb'; exact (Option.some.injEq .. ▸ hnb').symm
    subst this
    exact hc _ hmem

/-- C3: remove_node_and_children_by_id fails leaving the tree entirely
unchanged when the starting id is absent, fails (tree unchanged) whenever
some id reachable from the start does not resolve, and never changes the
tree on any failure; when everything reachable resolves it succeeds, and
on success exactly the ids reachable from the start are removed, every
other node is untouched, and the root is cleared exactly when the
starting id was the root. -/
theorem C3_remove_node_and_children (t : Tree) (id : String) :
    (lookupA t.nodes id = none → t.remove_node_and_children_by_id id = (false, t))
    ∧ (∀ r, t.remove_node_and_children_by_id id = (false, r) → r = t)
    ∧ ((∃ x, ReachN t.nodes id x ∧ resolvesB t.nodes x = false) →
        t.remove_node_and_children_by_id id = (false, t))
    ∧ ((lookupA t.nodes id).isSome = true → allResolvable t id = true →
        (t.remove_node_and_children_by_id id).1 = true)
    ∧ (∀ t', t.remove_node_and_children_by_id id = (true, t') →
        (∀ x, ReachN t.nodes id x → lookupA t'.nodes x = none)
        ∧ (∀ x, ¬ReachN t.nodes id x → lookupA t'.nodes x = lookupA t.nodes x)
        ∧ t'.root = (if t.root = id then "" else t.root)
        ∧ t'.name = t.name) := by
  refine ⟨?_, ?_, ?_, ?_, ?_⟩
  · intro h
    simp [Tree.remove_node_and_children_by_id, collectF_start_dangling _ h]
  · intro r hr
    unfold Tree.remove_node_and_children_by_id at hr
    cases hc : collectF t.nodes (walkPot t.nodes [] [id]) [] [id] with
    | none => rw [hc] at hr; exact (Prod.mk.injEq .. ▸ hr).2.symm
    | some l => rw [hc] at hr; exact absurd (Prod.mk.injEq .. ▸ hr).1 (by simp)
  · rintro ⟨x, hre, hdang⟩
    unfold Tree.remove_node_and_children_by_id
    cases hc : collectF t.nodes (walkPot t.nodes [] [id]) [] [id] with
    | none => rfl
    | some l =>
      obtain ⟨_, H2, H3⟩ := collectF_post _ _ _ _ hc
      have hidm : id ∈ l := H2 id (List.mem_singleton_self _)
      have hcl : ∀ y ∈ l, ∃ n, lookupA t.nodes y = some n ∧ ∀ c ∈ n.children, c ∈ l :=
        fun y hy => H3 y hy (by simp)
      obtain ⟨nx, hnx, _⟩ := hcl x (reach_mem_of_closed hidm hcl x hre)
      simp [resolvesB, hnx] at hdang
  · intro hsome hall
    have hres0 : ∀ x, ReachN t.nodes id x → resolvesB t.nodes x = true := by
      intro x hre
      induction hre with
      | refl => simpa [resolvesB] using hsome
      | tail hab hbc ih =>
        rename_i b c
        obtain ⟨nb, hnb, hmem⟩ := hbc
        have hbres : resolvesB t.nodes b = true := by simp [resolvesB, hnb]
        have hbw : b ∈ t.walk id := (walk_mem_iff t id b).mpr ⟨hbres, hab⟩
        have := (List.all_eq_true.mp hall) b hbw
        rw [hnb] at this
        exact (List.all_eq_true.mp this) c hmem
    have hres : ∀ i ∈ ([id] : List String), ∀ x, ReachN t.nodes i x →
        resolvesB t.nodes x = true := by
      intro i hi x hre
      rw [List.mem_singleton.mp hi] at hre
      exact hres0 x hre
    have := collectF_isSome _ [] [id] (le_refl _) hres
    unfold Tree.remove_node_and_children_by_id
    cases hc : collectF t.nodes (walkPot t.nodes [] [id]) [] [id] with
    | none => rw [hc] at this; simp at this
    | some l => rfl
  · intro t' ht'
    unfold Tree.remove_node_and_children_by_id at ht'
    cases hc : collectF t.nodes (walkPot t.nodes [] [id]) [] [id] with
    | none => rw [hc] at ht'; exact absurd (Prod.mk.injEq .. ▸ ht').1 (by simp)
    | some l =>
      rw [hc] at ht'
      obtain ⟨heq1, heq2⟩ := Prod.mk.injEq .. ▸ ht'
      obtain ⟨_, H2, H3⟩ := collectF_post _ _ _ _ hc
      have hidm : id ∈ l := H2 id (List.mem_singleton_self _)
      have hcl : ∀ y ∈ l, ∃ n, lookupA t.nodes y = some n ∧ ∀ c ∈ n.children, c ∈ l :=
        fun y hy => H3 y hy (by simp)
      refine ⟨?_, ?_, ?_, ?_⟩
      · intro x hre
        have hx : x ∈ l := reach_mem_of_closed hidm hcl x hre
        rw [← heq2]
        simp only [lookupA_filter_not_mem, hx, if_true]
      · intro x hnre
        have hx : x ∉ l := by
          intro hmem
          rcases collectF_sound _ _ _ _ _ hc hmem with h1 | ⟨s, hs, hre⟩
          · simp at h1
          · exact hnre ((List.mem_singleton.mp hs) ▸ hre)
        rw [← heq2]
        simp only [lookupA_filter_not_mem, hx, if_false]
      · rw [← heq2]
      · rw [← heq2]

/-- Witness for C3 on the dangling-child tree: removing an absent id
fails, removing the node whose child reference dangles fails and leaves
the tree unchanged, and removing the (fully resolvable) root succeeds. -/
theorem C3_remove_node_and_children_witness :
    danglingChildTree.remove_node_and_children_by_id "zz" = (false, danglingChildTree)
    ∧ danglingChildTree.remove_node_and_children_by_id "tn" = (false, danglingChildTree)
    ∧ (danglingChildTree.remove_node_and_children_by_id "r").1 = true :=
  ⟨(C3_remove_node_and_children danglingChildTree "zz").1 rfl,
   (C3_remove_node_and_children danglingChildTree "tn").2.2.1
     ⟨"missing", Relation.ReflTransGen.single
       ⟨{ title := "test_node", id := "tn", children := ["missing"] }, rfl, by decide⟩, rfl⟩,
   (C3_remove_node_and_children danglingChildTree "r").2.2.2.1 rfl (by decide)⟩

-- ===== C10: walk totality under dangling references =====

theorem withDanglingChild_nodes (t : Tree) (n : Node) (d : String) :
    (withDanglingChild t n d).nodes = insertA t.nodes n.id (n.add_child d) := rfl

theorem resolves_insert_dangling {t : Tree} {n : Node} {d : String}
    (hn : lookupA t.nodes n.id = some n) (x : String) :
    resolvesB (withDanglingChild t n d).nodes x = resolvesB t.nodes x := by
  rw [withDanglingChild_nodes]
  by_cases hx : x = n.id
  · subst hx
    simp [resolvesB, lookupA_insertA_self, hn]
  · simp [resolvesB, lookupA_insertA_ne _ _ _ _ hx]

theorem edge_insert_dangling {t : Tree} {n : Node} {d : String}
    (hn : lookupA t.nodes n.id = some n) (a b : String) :
    EdgeN (withDanglingChild t n d).nodes a b
      ↔ EdgeN t.nodes a b ∨ (a = n.id ∧ b = d) := by
  rw [withDanglingChild_nodes]
  constructor
  · rintro ⟨m, hm, hb⟩
    by_cases ha : a = n.id
    · subst ha
      rw [lookupA_insertA_self] at hm
      have hmeq : m = n.add_child d := by
        have := Option.some.injEq .. ▸ hm
        exact this.symm
      subst hmeq
      have hb2 : b ∈ n.children ∨ b = d := by
        simpa [Node.add_child] using hb
      rcases hb2 with h1 | h1
      · exact Or.inl ⟨n, hn, h1⟩
      · exact Or.inr ⟨rfl, h1⟩
    · rw [lookupA_insertA_ne _ _ _ _ ha] at hm
      exact Or.inl ⟨m, hm, hb⟩
  · rintro (⟨m, hm, hb⟩ | ⟨ha, hb⟩)
    · by_cases ha : a = n.id
      · subst ha
        have hmeq : m = n := by
          rw [hn] at hm
          have := Option.some.injEq .. ▸ hm
          exact this.symm
        subst hmeq
        refine ⟨m.add_child d, lookupA_insertA_self .., ?_⟩
        simp [Node.add_child, hb]
      · refine ⟨m, ?_, hb⟩
        rw [lookupA_insertA_ne _ _ _ _ ha]
        exact hm
    · rw [ha, hb]
      refine ⟨n.add_child d, lookupA_insertA_self .., ?_⟩
      simp [Node.add_child]

theorem reach_insert_dangling {t : Tree} {n : Node} {d : String}
    (hn : lookupA t.nodes n.id = some n) (hd : lookupA t.nodes d = none) (s x : String)
    (hre : ReachN (withDanglingChild t n d).nodes s x) :
    resolvesB t.nodes x = true → ReachN t.nodes s x := by
  induction hre with
  | refl => intro _; exact Relation.ReflTransGen.refl
  | tail hab hbc ih =>
    rename_i b c
    intro hc
    rcases (edge_insert_dangling hn b c).mp hbc with ⟨m, hm, hmm⟩ | ⟨hb, hcd⟩
    · exact Relation.ReflTransGen.tail (ih (by simp [resolvesB, hm])) ⟨m, hm, hmm⟩
    · rw [hcd] at hc
      simp [resolvesB, hd] at hc

theorem length_filterMap_all_some {α β : Type} (f : α → Option β) :
    ∀ (l : List α), (∀ i ∈ l, (f i).isSome = true) → (l.filterMap f).length = l.length := by
  intro l
  induction l with
  | nil => simp
  | cons a l ih =>
    intro h
    obtain ⟨b, hb⟩ := Option.isSome_iff_exists.mp (h a (List.mem_cons_self ..))
    rw [List.filterMap_cons, hb]
    simp only [List.length_cons]
    rw [ih (fun i hi => h i (List.mem_cons_of_mem _ hi))]

/-- C10: find_role_subtree_nodes_below_node is insensitive to dangling
child references: if the stored node n gains an extra child id d that
resolves to no node, the set of walked ids is unchanged for every start,
and the returned node list keeps exactly the same length (the call is
total — unresolvable ids are simply skipped during the walk). -/
theorem C10_below_node_dangling (t : Tree) (n : Node) (d : String)
    (hn : lookupA t.nodes n.id = some n) (hd : lookupA t.nodes d = none) :
    (∀ s x, x ∈ (withDanglingChild t n d).walk s ↔ x ∈ t.walk s)
    ∧ (∀ s, ((withDanglingChild t n d).find_role_subtree_nodes_below_node s).length
        = (t.find_role_subtree_nodes_below_node s).length) := by
  have hmem : ∀ s x, x ∈ (withDanglingChild t n d).walk s ↔ x ∈ t.walk s := by
    intro s x
    rw [walk_mem_iff, walk_mem_iff]
    constructor
    · rintro ⟨hres, hre⟩
      rw [resolves_insert_dangling hn] at hres
      exact ⟨hres, reach_insert_dangling hn hd s x hre hres⟩
    · rintro ⟨hres, hre⟩
      refine ⟨by rw [resolves_insert_dangling hn]; exact hres, ?_⟩
      refine Relation.ReflTransGen.mono ?_ hre
      intro a b hab
      exact (edge_insert_dangling hn a b).mpr (Or.inl hab)
  refine ⟨hmem, ?_⟩
  intro s
  have hperm : List.Perm ((withDanglingChild t n d).walk s) (t.walk s) :=
    (List.perm_ext_iff_of_nodup (walk_nodup _ s) (walk_nodup t s)).mpr (hmem s)
  unfold Tree.find_role_subtree_nodes_below_node
  rw [length_filterMap_all_some _ _ ?_, length_filterMap_all_some _ _ ?_]
  · exact hperm.length_eq
  · intro i hi
    exact (by simpa [resolvesB] using ((walk_mem_iff t s i).mp hi).1)
  · intro i hi
    exact (by simpa [resolvesB] using
      ((walk_mem_iff (withDanglingChild t n d) s i).mp hi).1)

/-- Witness for C10 on the EnterFormationTactic fixture, mirroring the
test: appending the dangling child id to the root leaves the walked set
and the below-node count unchanged. -/
theorem C10_below_node_dangling_witness :
    (∀ x, x ∈ (withDanglingChild enterFormationTactic eftRoot "abcd").walk "rt"
        ↔ x ∈ enterFormationTactic.walk "rt")
    ∧ ((withDanglingChild enterFormationTactic eftRoot "abcd").find_role_subtree_nodes_below_node
          "rt").length
        = (enterFormationTactic.find_role_subtree_nodes_below_node "rt").length :=
  ⟨(C10_below_node_dangling enterFormationTactic eftRoot "abcd" rfl rfl).1 "rt",
   (C10_below_node_dangling enterFormationTactic eftRoot "abcd" rfl rfl).2 "rt"⟩

-- ===== C9: role-subtree node collection =====

theorem mem_foldr_self (g : Node → List Node) :
    ∀ (L : List Node) (a : Node), a ∈ L →
      a ∈ L.foldr (fun b acc => (b :: g b) ++ acc) [] := by
  intro L
  induction L with
  | nil => intro a ha; simp at ha
  | cons b L ih =>
    intro a ha
    rw [List.foldr_cons]
    rcases List.mem_cons.mp ha with h | h
    · exact List.mem_append_left _ (h ▸ List.mem_cons_self ..)
    · exact List.mem_append_right _ (ih a h)

theorem mem_foldr_sub (g : Node → List Node) :
    ∀ (L : List Node) (a x : Node), a ∈ L → x ∈ g a →
      x ∈ L.foldr (fun b acc => (b :: g b) ++ acc) [] := by
  intro L
  induction L with
  | nil => intro a x ha; simp at ha
  | cons b L ih =>
    intro a x ha hx
    rw [List.foldr_cons]
    rcases List.mem_cons.mp ha with h | h
    · subst h
      exact List.mem_append_left _ (List.mem_cons_of_mem _ hx)
    · exact List.mem_append_right _ (ih a x h hx)

theorem mem_anchor_sites {t : Tree} {role a_id : String} {a : Node}
    (h : lookupA t.nodes a_id = some a) (hr : roleOf a = some role) :
    a ∈ t.anchor_sites role := by
  unfold Tree.anchor_sites
  refine List.mem_map.mpr ⟨(a_id, a), ?_, rfl⟩
  refine List.mem_filter.mpr ⟨mem_of_lookupA h, ?_⟩
  simp [hr]

/-- C9: find_role_subtree_nodes_if_exist includes, for every tree, every
anchor node whose role attribute equals the requested role, together with
every node of the subtree attached below the anchor's first child; on the
EnterFormationTactic fixture the result has exactly 7 nodes, contains the
anchors 0ia3adfsyai4m and mz9t0qn1r1brww, and excludes the anchor's other
descendant 3j1eplzumct1ky2l, which lies outside the attached role
subtree. -/
theorem C9_find_role_subtree_nodes :
    (∀ (t : Tree) (role a_id : String) (a : Node),
        lookupA t.nodes a_id = some a → roleOf a = some role →
        a ∈ t.find_role_subtree_nodes_if_exist role)
    ∧ (∀ (t : Tree) (role a_id : String) (a : Node) (c : String) (rest : List String) (x : Node),
        lookupA t.nodes a_id = some a → roleOf a = some role → a.children = c :: rest →
        x ∈ t.find_role_subtree_nodes_below_node c →
        x ∈ t.find_role_subtree_nodes_if_exist role)
    ∧ (enterFormationTactic.find_role_subtree_nodes_if_exist "EnterFormationRole").length = 7
    ∧ ((enterFormationTactic.find_role_subtree_nodes_if_exist "EnterFormationRole").map Node.id
        = ["0ia3adfsyai4m", "c2x", "c2", "c1", "mz9t0qn1r1brww", "c4", "c3"])
    ∧ "3j1eplzumct1ky2l" ∉
        (enterFormationTactic.find_role_subtree_nodes_if_exist "EnterFormationRole").map
          Node.id := by
  refine ⟨?_, ?_, ?_, ?_, ?_⟩
  · intro t role a_id a h hr
    exact mem_foldr_self _ _ _ (mem_anchor_sites h hr)
  · intro t role a_id a c rest x h hr hch hx
    refine mem_foldr_sub
      (fun b => match b.children with
        | [] => []
        | c :: _ => t.find_role_subtree_nodes_below_node c) _ a x
      (mem_anchor_sites h hr) ?_
    simp only [hch]
    exact hx
  · rfl
  · rfl
  · decide

/-- Witness for C9: the two anchors of the fixture are in the result via
the general membership statements, and so is a node of the first anchor's
attached subtree. -/
theorem C9_find_role_subtree_nodes_witness :
    eftAnchor1 ∈ enterFormationTactic.find_role_subtree_nodes_if_exist "EnterFormationRole"
    ∧ eftAnchor2 ∈ enterFormationTactic.find_role_subtree_nodes_if_exist "EnterFormationRole"
    ∧ { title := "Sequence", id := "c1", children := ["c2"] } ∈
        enterFormationTactic.find_role_subtree_nodes_if_exist "EnterFormationRole" :=
  ⟨C9_find_role_subtree_nodes.1 enterFormationTactic "EnterFormationRole" "0ia3adfsyai4m"
      eftAnchor1 rfl rfl,
   C9_find_role_subtree_nodes.1 enterFormationTactic "EnterFormationRole" "mz9t0qn1r1brww"
      eftAnchor2 rfl rfl,
   C9_find_role_subtree_nodes.2.1 enterFormationTactic "EnterFormationRole" "0ia3adfsyai4m"
      eftAnchor1 "c1" ["3j1eplzumct1ky2l"]
      { title := "Sequence", id := "c1", children := ["c2"] } rfl rfl rfl
      (by rw [show enterFormationTactic.find_role_subtree_nodes_below_node "c1"
            = [{ title := "Skill", id := "c2x" },
               { title := "EnterFormation", id := "c2", children := ["c2x"] },
               { title := "Sequence", id := "c1", children := ["c2"] }] from rfl]
          exact List.mem_cons_of_mem _ (List.mem_cons_of_mem _ (List.mem_cons_self ..)))⟩

-- ===== C4: subtree replacement =====

theorem lookupA_append {α : Type} (l₁ l₂ : List (String × α)) (k : String) :
    lookupA (l₁ ++ l₂) k
      = (match lookupA l₁ k with
         | some v => some v
         | none => lookupA l₂ k) := by
  induction l₁ with
  | nil => simp [lookupA]
  | cons p rest ih =>
    obtain ⟨k₀, v₀⟩ := p
    by_cases hk : k = k₀ <;> simp [lookupA, hk, ih]

theorem keysA_append {α : Type} (l₁ l₂ : List (String × α)) :
    keysA (l₁ ++ l₂) = keysA l₁ ++ keysA l₂ := by
  simp [keysA]

theorem freshMap_lookup {src tgt : String} :
    ∀ (sub fresh : List String),
      (sub.filter (fun y => decide (y ≠ src))).length ≤ fresh.length →
      ∀ y ∈ sub,
        (y = src ∧ lookupA (freshMap src tgt sub fresh) y = some tgt)
        ∨ (y ≠ src ∧ ∃ f ∈ fresh, lookupA (freshMap src tgt sub fresh) y = some f) := by
  intro sub
  induction sub with
  | nil => intro fresh _ y hy; simp at hy
  | cons i rest ih =>
    intro fresh hlen y hy
    by_cases hi : i = src
    · subst hi
      rw [show freshMap i tgt (i :: rest) fresh
            = (i, tgt) :: freshMap i tgt rest fresh from by simp [freshMap]]
      by_cases hyi : y = i
      · subst hyi
        exact Or.inl ⟨rfl, by simp [lookupA]⟩
      · have hy2 : y ∈ rest := by
          rcases List.mem_cons.mp hy with h | h
          · exact absurd h hyi
          · exact h
        have hlen2 : (rest.filter (fun z => decide (z ≠ i))).length ≤ fresh.length := by
          have hfc : (List.filter (fun z => decide (z ≠ i)) (i :: rest))
              = List.filter (fun z => decide (z ≠ i)) rest := by
            rw [List.filter_cons]
            simp
          rw [hfc] at hlen
          exact hlen
        rcases ih fresh hlen2 y hy2 with ⟨h1, h2⟩ | ⟨h1, f, hf, h2⟩
        · exact Or.inl ⟨h1, by simpa [lookupA, hyi] using h2⟩
        · exact Or.inr ⟨h1, f, hf, by simpa [lookupA, hyi] using h2⟩
    · have hne : (decide (i ≠ src)) = true := by simpa using hi
      have hfc : (List.filter (fun z => decide (z ≠ src)) (i :: rest))
          = i :: List.filter (fun z => decide (z ≠ src)) rest := by
        rw [List.filter_cons, hne]
        simp
      rw [hfc] at hlen
      cases fresh with
      | nil => simp at hlen
      | cons f fs =>
        rw [show freshMap src tgt (i :: rest) (f :: fs)
              = (i, f) :: freshMap src tgt rest fs from by simp [freshMap, hi]]
        by_cases hyi : y = i
        · subst hyi
          exact Or.inr ⟨hi, f, List.mem_cons_self .., by simp [lookupA]⟩
        · have hy2 : y ∈ rest := by
            rcases List.mem_cons.mp hy with h | h
            · exact absurd h hyi
            · exact h
          have hlen2 : (rest.filter (fun z => decide (z ≠ src))).length ≤ fs.length := by
            simp only [List.length_cons] at hlen
            omega
          rcases ih fs hlen2 y hy2 with ⟨h1, h2⟩ | ⟨h1, g, hg, h2⟩
          · exact Or.inl ⟨h1, by simpa [lookupA, hyi] using h2⟩
          · exact Or.inr ⟨h1, g, List.mem_cons_of_mem _ hg, by simpa [lookupA, hyi] using h2⟩

theorem mapId_spec {src tgt : String} {sub fresh : List String}
    (hlen : (sub.filter (fun y => decide (y ≠ src))).length ≤ fresh.length) {y : String}
    (hy : y ∈ sub) :
    (y = src ∧ mapId (freshMap src tgt sub fresh) y = tgt)
    ∨ (y ≠ src ∧ mapId (freshMap src tgt sub fresh) y ∈ fresh) := by
  rcases @freshMap_lookup src tgt sub fresh hlen y hy with ⟨h1, h2⟩ | ⟨h1, f, hf, h2⟩
  · exact Or.inl ⟨h1, by simp [mapId, h2]⟩
  · exact Or.inr ⟨h1, by simpa [mapId, h2] using hf⟩

theorem mem_keysA_copySubtree {ns : List (String × Node)} {sub : List String}
    {m : List (String × String)} {k : String} (h : k ∈ keysA (copySubtree ns sub m)) :
    ∃ y ∈ sub, k = mapId m y ∧ (lookupA ns y).isSome = true := by
  obtain ⟨p, hp, hpk⟩ := List.mem_map.mp h
  obtain ⟨y, hy, hf⟩ := List.mem_filterMap.mp hp
  cases hl : lookupA ns y with
  | none => rw [hl] at hf; simp at hf
  | some n =>
    rw [hl] at hf
    have : p = (mapId m y, { n with id := mapId m y, children := n.children.map (mapId m) }) := by
      simpa using hf.symm
    exact ⟨y, hy, by rw [← hpk, this], by simp [hl]⟩

theorem copySubtree_mem_key {ns : List (String × Node)} {sub : List String}
    (m : List (String × String)) {y : String} (hy : y ∈ sub) {n : Node}
    (hn : lookupA ns y = some n) : mapId m y ∈ keysA (copySubtree ns sub m) := by
  refine List.mem_map.mpr
    ⟨(mapId m y, { n with id := mapId m y, children := n.children.map (mapId m) }), ?_, rfl⟩
  exact List.mem_filterMap.mpr ⟨y, hy, by simp [hn]⟩

/-- C4: update_subtree is a no-op when the target id is absent from this
tree or the source id is absent from the other tree; otherwise, given a
fresh supply disjoint from this tree's ids and long enough for the source
subtree, every node of the old subtree below the target is removed, every
node outside the old subtree (and not freshly added) is untouched, every
id of the result is an old id, the reused target id, or a supplied fresh
id — so every copied node except the top one carries a fresh id — and
the target id itself remains present (the top copy reuses it); on the
concrete four-node tree updated from the two-node source at the roots the
result has exactly two nodes. -/
theorem C4_update_subtree (t other : Tree) (target_id source_id : String)
    (fresh : List String) :
    (lookupA t.nodes target_id = none → t.update_subtree other target_id source_id fresh = t)
    ∧ (lookupA other.nodes source_id = none → t.update_subtree other target_id source_id fresh = t)
    ∧ ((lookupA t.nodes target_id).isSome = true →
       (lookupA other.nodes source_id).isSome = true →
       (∀ fid ∈ fresh, fid ∉ keysA t.nodes) →
       ((other.walk source_id).filter (fun y => decide (y ≠ source_id))).length ≤ fresh.length →
        (∀ x ∈ t.walk target_id, x ≠ target_id →
          lookupA (t.update_subtree other target_id source_id fresh).nodes x = none)
        ∧ (∀ x, x ∉ t.walk target_id → x ∉ fresh → x ≠ target_id →
            lookupA (t.update_subtree other target_id source_id fresh).nodes x
              = lookupA t.nodes x)
        ∧ (∀ k, k ∈ keysA (t.update_subtree other target_id source_id fresh).nodes →
            k ∈ keysA t.nodes ∨ k = target_id ∨ k ∈ fresh)
        ∧ target_id ∈ keysA (t.update_subtree other target_id source_id fresh).nodes)
    ∧ (fourNodeTree.update_subtree twoNodeSource "t1" "s1" ["f1"]).nodes.length = 2 := by
  refine ⟨?_, ?_, ?_, ?_⟩
  · intro h
    simp [Tree.update_subtree, h]
  · intro h
    simp [Tree.update_subtree, h]
  · intro htgt hsrc hdisj hlen
    obtain ⟨tn, htn⟩ := Option.isSome_iff_exists.mp htgt
    obtain ⟨sn, hsn⟩ := Option.isSome_iff_exists.mp hsrc
    have hcond : ¬((lookupA t.nodes target_id).isNone = true
        ∨ (lookupA other.nodes source_id).isNone = true) := by
      simp [htn, hsn]
    have hun : (t.update_subtree other target_id source_id fresh).nodes
        = t.nodes.filter (fun p => decide (p.1 ∉ t.walk target_id))
          ++ copySubtree other.nodes (other.walk source_id)
               (freshMap source_id target_id (other.walk source_id) fresh) := by
      unfold Tree.update_subtree
      rw [if_neg hcond]
    have hnotcopied : ∀ x, x ≠ target_id → x ∉ fresh →
        x ∉ keysA (copySubtree other.nodes (other.walk source_id)
          (freshMap source_id target_id (other.walk source_id) fresh)) := by
      intro x hxt hxf hmem
      obtain ⟨y, hy, hxy, _⟩ := mem_keysA_copySubtree hmem
      rcases mapId_spec hlen hy with ⟨_, heq⟩ | ⟨_, hf⟩
      · exact hxt (hxy ▸ heq)
      · exact hxf (hxy ▸ hf)
    refine ⟨?_, ?_, ?_, ?_⟩
    · intro x hx hxt
      rw [hun, lookupA_append, lookupA_filter_not_mem]
      have hxk : x ∈ keysA t.nodes :=
        (lookupA_isSome_iff_mem_keys _ _).mp
          (by simpa [resolvesB] using ((walk_mem_iff t target_id x).mp hx).1)
      have hxf : x ∉ fresh := fun hmem => hdisj x hmem hxk
      rw [lookupA_eq_none_of_not_mem_keys (hnotcopied x hxt hxf)]
      simp [hx]
    · intro x hxw hxf hxt
      rw [hun, lookupA_append, lookupA_filter_not_mem]
      rw [lookupA_eq_none_of_not_mem_keys (hnotcopied x hxt hxf)]
      cases hl : lookupA t.nodes x <;> simp [hxw, hl]
    · intro k hk
      rw [hun, keysA_append] at hk
      rcases List.mem_append.mp hk with h | h
      · obtain ⟨p, hp, hpk⟩ := List.mem_map.mp h
        exact Or.inl (hpk ▸ List.mem_map_of_mem Prod.fst (List.mem_of_mem_filter hp))
      · obtain ⟨y, hy, hky, _⟩ := mem_keysA_copySubtree h
        rcases mapId_spec hlen hy with ⟨_, heq⟩ | ⟨_, hf⟩
        · exact Or.inr (Or.inl (hky ▸ heq))
        · exact Or.inr (Or.inr (hky ▸ hf))
    · rw [hun, keysA_append]
      have hsub : source_id ∈ other.walk source_id :=
        (walk_mem_iff other source_id source_id).mpr
          ⟨by simp [resolvesB, hsn], Relation.ReflTransGen.refl⟩
      have hkey := copySubtree_mem_key
        (freshMap source_id target_id (other.walk source_id) fresh) hsub hsn
      rcases @mapId_spec source_id target_id (other.walk source_id) fresh hlen source_id hsub
        with ⟨_, heq⟩ | ⟨hne, _⟩
      · refine List.mem_append_right _ ?_
        nth_rewrite 2 [← heq]
        exact hkey
      · exact absurd rfl hne
  · rfl

/-- Witness for C4 on the four-node/two-node fixtures: both no-op guards
fire on absent ids, the old subtree node t2 is gone after the update, and
the target id t1 is still present. -/
theorem C4_update_subtree_witness :
    fourNodeTree.update_subtree twoNodeSource "zz" "s1" ["f1"] = fourNodeTree
    ∧ fourNodeTree.update_subtree twoNodeSource "t1" "zz" ["f1"] = fourNodeTree
    ∧ lookupA (fourNodeTree.update_subtree twoNodeSource "t1" "s1" ["f1"]).nodes "t2" = none
    ∧ "t1" ∈ keysA (fourNodeTree.update_subtree twoNodeSource "t1" "s1" ["f1"]).nodes :=
  ⟨(C4_update_subtree fourNodeTree twoNodeSource "zz" "s1" ["f1"]).1 rfl,
   (C4_update_subtree fourNodeTree twoNodeSource "t1" "zz" ["f1"]).2.1 rfl,
   ((C4_update_subtree fourNodeTree twoNodeSource "t1" "s1" ["f1"]).2.2.1 rfl rfl
      (by decide) (by decide)).1 "t2" (by decide) (by decide),
   ((C4_update_subtree fourNodeTree twoNodeSource "t1" "s1" ["f1"]).2.2.1 rfl rfl
      (by decide) (by decide)).2.2.2⟩

-- ===== C8: propagation frame and skip conditions =====

theorem mapped_entry_lookup (c : Collection) (cat file : String) (F : String → Tree → Tree) :
    (lookupA (c.collection.map (fun cf =>
        (cf.1, cf.2.map (fun ft =>
          (ft.1, if cf.1 = cat ∧ ft.1 = file then ft.2 else F cf.1 ft.2))))) cat).bind
      (fun files => lookupA files file)
    = (lookupA c.collection cat).bind (fun files => lookupA files file) := by
  rw [lookupA_mapVal c.collection
    (fun k files => files.map (fun ft => (ft.1, if k = cat ∧ ft.1 = file then ft.2 else F k ft.2)))
    cat]
  cases h : lookupA c.collection cat with
  | none => rfl
  | some files =>
    show lookupA (List.map (fun ft =>
      (ft.1, if cat = cat ∧ ft.1 = file then ft.2 else F cat ft.2)) files) file
      = lookupA files file
    rw [lookupA_mapVal files (fun k tr => if cat = cat ∧ k = file then tr else F cat tr) file]
    cases lookupA files file <;> simp

/-- C8: the propagation protocol is a complete no-op when the edited
source tree is not a role tree and either no role anchor is found above
the changed node or the found anchor has no children; and in all cases
the source tree's own entry in the collection is left untouched. -/
theorem C8_propagation_frame :
    (∀ (c : Collection) (cat file : String) (changed : Option String) (fresh : List String)
        (source : Tree), cat ≠ "roles" →
      (lookupA c.collection cat).bind (fun files => lookupA files file) = some source →
      source.find_role_subtree_node_above_node (changed.getD source.root) = none →
      c.update_subtrees_in_collection cat file changed fresh = c)
    ∧ (∀ (c : Collection) (cat file : String) (changed : Option String) (fresh : List String)
        (source : Tree) (a : Node), cat ≠ "roles" →
      (lookupA c.collection cat).bind (fun files => lookupA files file) = some source →
      source.find_role_subtree_node_above_node (changed.getD source.root) = some a →
      a.children = [] →
      c.update_subtrees_in_collection cat file changed fresh = c)
    ∧ (∀ (c : Collection) (cat file : String) (changed : Option String) (fresh : List String),
      (lookupA (c.update_subtrees_in_collection cat file changed fresh).collection cat).bind
          (fun files => lookupA files file)
        = (lookupA c.collection cat).bind (fun files => lookupA files file)) := by
  refine ⟨?_, ?_, ?_⟩
  · intro c cat file changed fresh source hcat hsel habove
    unfold Collection.update_subtrees_in_collection
    rw [hsel]
    simp [hcat, habove]
  · intro c cat file changed fresh source a hcat hsel habove hch
    unfold Collection.update_subtrees_in_collection
    rw [hsel]
    simp [hcat, habove, hch]
  · intro c cat file changed fresh
    unfold Collection.update_subtrees_in_collection
    cases hsel : (lookupA c.collection cat).bind (fun files => lookupA files file) with
    | none => exact hsel
    | some source =>
      dsimp only
      split
      · exact hsel
      · next rs heq =>
          exact (mapped_entry_lookup c cat file
            (fun _ tr => Tree.update_role_sites tr rs.1 source rs.2 fresh)).trans hsel

/-- Witness for C8 on the concrete collections: no anchor above the
changed node (four-node strategy) and a childless anchor both leave the
collection unchanged, and the source entry is preserved in the scenario
propagation. -/
theorem C8_propagation_frame_witness :
    demoCollection.update_subtrees_in_collection "strategies" "FourNode.json" none []
      = demoCollection
    ∧ anchoredCollection.update_subtrees_in_collection "strategies" "Anchored.json"
        (some "an") [] = anchoredCollection
    ∧ (lookupA (scenarioCollection.update_subtrees_in_collection "roles" "R.json" none
          ["f1", "f2"]).collection "roles").bind (fun files => lookupA files "R.json")
      = (lookupA scenarioCollection.collection "roles").bind
          (fun files => lookupA files "R.json") :=
  ⟨C8_propagation_frame.1 demoCollection "strategies" "FourNode.json" none [] fourNodeTree
      (by decide) rfl rfl,
   C8_propagation_frame.2.1 anchoredCollection "strategies" "Anchored.json" (some "an") []
      anchoredTree bareAnchor (by decide) rfl rfl rfl,
   C8_propagation_frame.2.2 scenarioCollection "roles" "R.json" none ["f1", "f2"]⟩

-- ===== C2: cross-tree propagation scenario =====

/-- C2: in the scenario collection — role tree R with two nodes, a tree T
of another category whose anchor node N (attribute role = R) holds a
stale one-node copy — propagating R with two fresh ids f1, f2 replaces
the copy under N by a fresh two-node copy of R's current subtree: the
result is exactly the collection where R's entry is untouched, T's other
node n0 and the anchor's id and attributes are unchanged, the copy has
R's node count (two nodes, ids f2 and f1), and the copied ids are the
supplied fresh ids, which differ from R's own node ids. -/
theorem C2_cross_tree_propagation (f1 f2 : String)
    (h1 : f1 ∉ (["r1", "r2", "n0", "N", "c0"] : List String))
    (h2 : f2 ∉ (["r1", "r2", "n0", "N", "c0"] : List String)) (h12 : f1 ≠ f2) :
    scenarioCollection.update_subtrees_in_collection "roles" "R.json" none [f1, f2]
      = { collection := [("roles", [("R.json", roleR)]),
                         ("tactics", [("T.json", scenarioResultTree f1 f2)])] }
    ∧ 2 = roleR.nodes.length
    ∧ (f1 ≠ "r1" ∧ f1 ≠ "r2" ∧ f2 ≠ "r1" ∧ f2 ≠ "r2" ∧ f1 ≠ f2) := by
  refine ⟨rfl, rfl, ?_⟩
  simp only [List.mem_cons, List.mem_singleton, not_or] at h1 h2
  exact ⟨h1.1, h1.2.1, h2.1, h2.2.1, h12⟩

/-- Witness for C2 with the concrete fresh ids f1 and f2. -/
theorem C2_cross_tree_propagation_witness :
    scenarioCollection.update_subtrees_in_collection "roles" "R.json" none ["f1", "f2"]
      = { collection := [("roles", [("R.json", roleR)]),
                         ("tactics", [("T.json", scenarioResultTree "f1" "f2")])] }
    ∧ 2 = roleR.nodes.length
    ∧ (("f1" : String) ≠ "r1" ∧ ("f1" : String) ≠ "r2" ∧ ("f2" : String) ≠ "r1"
        ∧ ("f2" : String) ≠ "r2" ∧ ("f1" : String) ≠ "f2") :=
  C2_cross_tree_propagation "f1" "f2" (by decide) (by decide) (by decide)

-- ===== C1: canonical forms and the round-trip =====

theorem canon_str (s : String) : (Json.str s).canon = .str s := by
  simp [Json.canon]

theorem canon_arr (l : List Json) :
    (Json.arr l).canon = .arr (Json.canonList l) := by
  simp [Json.canon]

theorem canon_obj (kvs : List (String × Json)) :
    (Json.obj kvs).canon = .obj (List.insertionSort keyLe (Json.canonKVs kvs)) := by
  simp [Json.canon]

theorem canonKVs_map (l : List (String × Json)) :
    Json.canonKVs l = l.map (fun p => (p.1, p.2.canon)) := by
  induction l with
  | nil => simp [Json.canonKVs]
  | cons p rest ih => obtain ⟨k, v⟩ := p; simp [Json.canonKVs, ih]

theorem canonList_map (l : List Json) :
    Json.canonList l = l.map Json.canon := by
  induction l with
  | nil => simp [Json.canonList]
  | cons j rest ih => simp [Json.canonList, ih]

theorem char_toNat_inj {a b : Char} (h : a.toNat = b.toNat) : a = b :=
  Char.eq_of_val_eq (UInt32.ext h)

theorem charsLe_total (a b : List Char) : charsLe a b = true ∨ charsLe b a = true := by
  induction a generalizing b with
  | nil => left; rfl
  | cons x xs ih =>
    cases b with
    | nil => right; rfl
    | cons y ys =>
      by_cases h1 : x.toNat < y.toNat
      · left; simp [charsLe, h1]
      · by_cases h2 : y.toNat < x.toNat
        · right; simp [charsLe, h2]
        · rcases ih ys with h | h
          · left; simp [charsLe, h1, h2, h]
          · right; simp [charsLe, h1, h2, h]

theorem charsLe_trans {a b c : List Char} (h1 : charsLe a b = true)
    (h2 : charsLe b c = true) : charsLe a c = true := by
  induction a generalizing b c with
  | nil => rfl
  | cons x xs ih =>
    cases b with
    | nil => simp [charsLe] at h1
    | cons y ys =>
      cases c with
      | nil => simp [charsLe] at h2
      | cons z zs =>
        simp only [charsLe] at h1 h2 ⊢
        by_cases hxy : x.toNat < y.toNat
        · by_cases hyz : y.toNat < z.toNat
          · have : x.toNat < z.toNat := Nat.lt_trans hxy hyz
            simp [this]
          · by_cases hzy : z.toNat < y.toNat
            · simp [hyz, hzy] at h2
            · have : x.toNat < z.toNat := by omega
              simp [this]
        · by_cases hyx : y.toNat < x.toNat
          · simp [hxy, hyx] at h1
          · by_cases hyz : y.toNat < z.toNat
            · have : x.toNat < z.toNat := by omega
              simp [this]
            · by_cases hzy : z.toNat < y.toNat
              · simp [hyz, hzy] at h2
              · simp only [hxy, hyx, if_neg, if_false] at h1
                simp only [hyz, hzy, if_neg, if_false] at h2
                have hxz : ¬ x.toNat < z.toNat := by omega
                have hzx : ¬ z.toNat < x.toNat := by omega
                simp [hxz, hzx]
                exact ih h1 h2

theorem charsLe_antisymm {a b : List Char} (h1 : charsLe a b = true)
    (h2 : charsLe b a = true) : a = b := by
  induction a generalizing b with
  | nil => cases b with
    | nil => rfl
    | cons y ys => simp [charsLe] at h2
  | cons x xs ih =>
    cases b with
    | nil => simp [charsLe] at h1
    | cons y ys =>
      simp only [charsLe] at h1 h2
      by_cases hxy : x.toNat < y.toNat
      · have : ¬ y.toNat < x.toNat := by omega
        simp [hxy, this] at h2
      · by_cases hyx : y.toNat < x.toNat
        · simp [hxy, hyx] at h1
        · have hxeq : x = y := char_toNat_inj (by omega)
          simp only [hxy, hyx, if_neg, if_false] at h1 h2
          exact hxeq ▸ congrArg (x :: ·) (ih h1 h2)

theorem strLeB_antisymm {a b : String} (h1 : strLeB a b = true)
    (h2 : strLeB b a = true) : a = b :=
  String.ext (charsLe_antisymm h1 h2)

instance : IsTotal (String × Json) keyLe :=
  ⟨fun p q => charsLe_total p.1.data q.1.data⟩

instance : IsTrans (String × Json) keyLe :=
  ⟨fun _ _ _ h1 h2 => charsLe_trans h1 h2⟩

/-- Under distinct keys, two sorted association lists that are
permutations of each other coincide. -/
theorem sorted_perm_eq_of_nodupKeys :
    ∀ l₁ l₂ : List (String × Json), l₁.Sorted keyLe → l₂.Sorted keyLe →
      NodupKeys l₂ → l₁.Perm l₂ → l₁ = l₂ := by
  intro l₁
  induction l₁ with
  | nil => intro l₂ _ _ _ hp; exact (List.Perm.nil_eq hp).symm ▸ rfl
  | cons a l₁' ih =>
    intro l₂ hs1 hs2 hnd2 hp
    cases l₂ with
    | nil => exact absurd hp.symm (by simp)
    | cons b l₂' =>
      have hab : a = b := by
        have hma : a ∈ b :: l₂' := hp.mem_iff.mp (by simp)
        have hmb : b ∈ a :: l₁' := hp.mem_iff.mpr (by simp)
        rcases List.mem_cons.mp hma with h | h
        · exact h
        · rcases List.mem_cons.mp hmb with h' | h'
          · exact h'.symm
          · have h1 : keyLe b a := (List.sorted_cons.mp hs2).1 a h
            have h2 : keyLe a b := (List.sorted_cons.mp hs1).1 b h'
            have hkey : a.1 = b.1 := strLeB_antisymm h2 h1
            have hmm : b.1 ∈ keysA l₂' := by
              rw [← hkey]
              exact List.mem_map_of_mem Prod.fst h
            have hnd := List.nodup_cons.mp (by simpa [NodupKeys, keysA_cons] using hnd2)
            exact absurd hmm hnd.1
      subst hab
      have hp' : l₁'.Perm l₂' := (List.perm_cons a).mp hp
      have hnd' : NodupKeys l₂' := by
        have := List.nodup_cons.mp (by simpa [NodupKeys, keysA_cons] using hnd2)
        exact this.2
      rw [ih l₂' (List.sorted_cons.mp hs1).2 (List.sorted_cons.mp hs2).2 hnd' hp']

/-- Pairs with distinct keys and identical lookups are permutations. -/
theorem permOfLookups {l₁ l₂ : List (String × Json)}
    (h1 : NodupKeys l₁) (h2 : NodupKeys l₂)
    (h : ∀ k, lookupA l₁ k = lookupA l₂ k) : l₁.Perm l₂ := by
  have hn1 : l₁.Nodup := List.Nodup.of_map Prod.fst h1
  have hn2 : l₂.Nodup := List.Nodup.of_map Prod.fst h2
  refine (List.perm_ext_iff_of_nodup hn1 hn2).mpr ?_
  rintro ⟨k, v⟩
  constructor
  · intro hm
    exact mem_of_lookupA ((h k) ▸ lookupA_of_mem_nodup h1 hm)
  · intro hm
    exact mem_of_lookupA ((h k).symm ▸ lookupA_of_mem_nodup h2 hm)

theorem keysA_canonKVs (l : List (String × Json)) :
    keysA (Json.canonKVs l) = keysA l := by
  simp [canonKVs_map, keysA, List.map_map]

theorem lookupA_canonKVs (l : List (String × Json)) (k : String) :
    lookupA (Json.canonKVs l) k = (lookupA l k).map Json.canon := by
  induction l with
  | nil => simp [Json.canonKVs, lookupA]
  | cons p rest ih =>
    obtain ⟨k₀, v⟩ := p
    by_cases hk : k = k₀ <;> simp [Json.canonKVs, lookupA, hk, ih]

/-- The congruence backbone of the round-trip proof: two key-distinct
objects whose lookups agree up to canonicalisation have identical
canonical forms. -/
theorem canon_obj_congr {l₁ l₂ : List (String × Json)}
    (h1 : NodupKeys l₁) (h2 : NodupKeys l₂)
    (h : ∀ k, (lookupA l₁ k).map Json.canon = (lookupA l₂ k).map Json.canon) :
    (Json.obj l₁).canon = (Json.obj l₂).canon := by
  rw [canon_obj, canon_obj]
  have hnd1 : NodupKeys (Json.canonKVs l₁) := by
    simpa [NodupKeys, keysA_canonKVs] using h1
  have hnd2 : NodupKeys (Json.canonKVs l₂) := by
    simpa [NodupKeys, keysA_canonKVs] using h2
  have hperm : (Json.canonKVs l₁).Perm (Json.canonKVs l₂) :=
    permOfLookups hnd1 hnd2 (fun k => by rw [lookupA_canonKVs, lookupA_canonKVs, h k])
  have hperm2 : (List.insertionSort keyLe (Json.canonKVs l₁)).Perm
      (List.insertionSort keyLe (Json.canonKVs l₂)) :=
    ((List.perm_insertionSort keyLe _).trans hperm).trans
      (List.perm_insertionSort keyLe _).symm
  have hndS : NodupKeys (List.insertionSort keyLe (Json.canonKVs l₂)) := by
    have hpk : (keysA (List.insertionSort keyLe (Json.canonKVs l₂))).Perm
        (keysA (Json.canonKVs l₂)) :=
      (List.perm_insertionSort keyLe _).map Prod.fst
    exact hpk.nodup_iff.mpr hnd2
  rw [sorted_perm_eq_of_nodupKeys _ _ (List.sorted_insertionSort keyLe _)
    (List.sorted_insertionSort keyLe _) hndS hperm2]

theorem strListOf_of_all_str {cs : List Json} (h : cs.all isStrB = true) :
    ∃ l : List String, strListOf cs = some l ∧ l.map Json.str = cs := by
  induction cs with
  | nil => exact ⟨[], rfl, rfl⟩
  | cons j rest ih =>
    simp only [List.all_cons, Bool.and_eq_true] at h
    cases j with
    | str s =>
      obtain ⟨l, hl1, hl2⟩ := ih h.2
      exact ⟨s :: l, by simp [strListOf, hl1], by simp [hl2]⟩
    | num n => simp [isStrB] at h
    | bool b => simp [isStrB] at h
    | arr l => simp [isStrB] at h
    | obj kvs => simp [isStrB] at h

/-- Serialization of a parsed node is, as a Python value, the document it
was parsed from: the generic congruence step of the round-trip. -/
theorem create_json_pyEq {kvs : List (String × Json)} {i t : String}
    {attrs : List (String × Json)} {cs : List String}
    (hnd : NodupKeys kvs)
    (hkeys : ∀ k ∈ keysA kvs, k ∈ (["id", "title", "attributes", "children"] : List String))
    (hid : lookupA kvs "id" = some (.str i))
    (htl : lookupA kvs "title" = some (.str t))
    (hattr : lookupA kvs "attributes" = if attrs.isEmpty then none else some (.obj attrs))
    (hch : lookupA kvs "children" = if cs.isEmpty then none else some (.arr (cs.map .str))) :
    Json.pyEq (Node.create_json ⟨t, i, attrs, cs⟩) (.obj kvs) := by
  have hndL : NodupKeys ([("id", Json.str i), ("title", Json.str t)]
      ++ (if attrs.isEmpty then [] else [("attributes", Json.obj attrs)])
      ++ (if cs.isEmpty then [] else [("children", Json.arr (cs.map .str))])) := by
    by_cases ha : attrs.isEmpty <;> by_cases hc : cs.isEmpty <;>
      simp [NodupKeys, keysA, ha, hc]
  show (Node.create_json ⟨t, i, attrs, cs⟩).canon = (Json.obj kvs).canon
  refine canon_obj_congr hndL hnd ?_
  intro k
  by_cases h1 : k = "id"
  · subst h1
    by_cases ha : attrs.isEmpty <;> by_cases hc : cs.isEmpty <;>
      simp [lookupA, ha, hc, hid]
  · by_cases h2 : k = "title"
    · subst h2
      by_cases ha : attrs.isEmpty <;> by_cases hc : cs.isEmpty <;>
        simp [lookupA, ha, hc, htl]
    · by_cases h3 : k = "attributes"
      · subst h3
        by_cases ha : attrs.isEmpty <;> by_cases hc : cs.isEmpty <;>
          simp [lookupA, ha, hc, hattr ▸ (by simp [ha] : (if attrs.isEmpty then none
            else some (Json.obj attrs)) = lookupA kvs "attributes" → True)] <;>
          rw [hattr] <;> simp [ha]
      · by_cases h4 : k = "children"
        · subst h4
          by_cases ha : attrs.isEmpty <;> by_cases hc : cs.isEmpty <;>
            simp [lookupA, ha, hc] <;> rw [hch] <;> simp [hc]
        · have hR : lookupA kvs k = none := by
            refine lookupA_eq_none_of_not_mem_keys ?_
            intro hm
            have := hkeys k hm
            simp [h1, h2, h3, h4] at this
          by_cases ha : attrs.isEmpty <;> by_cases hc : cs.isEmpty <;>
            simp [lookupA, ha, hc, h1, h2, h3, h4, hR]

/-- Round-trip for a single node document: parsing succeeds, the parsed
id is the document's id, and re-serialization is Python-equal to the
original. -/
theorem node_roundtrip {d : Json} (hv : validNodeDocB d = true) :
    ∃ n : Node, Node.from_json d = some n ∧ docId d = some n.id
      ∧ Json.pyEq n.create_json d := by
  cases d with
  | str s => simp [validNodeDocB] at hv
  | num n => simp [validNodeDocB] at hv
  | bool b => simp [validNodeDocB] at hv
  | arr l => simp [validNodeDocB] at hv
  | obj kvs =>
    simp only [validNodeDocB, Bool.and_eq_true, decide_eq_true_eq, List.all_eq_true] at hv
    obtain ⟨⟨⟨⟨⟨hnd, hkeys⟩, hid⟩, htl⟩, hattr⟩, hch⟩ := hv
    have hkeys' : ∀ k ∈ keysA kvs, k ∈ (["id", "title", "attributes", "children"] : List String) := by
      intro k hm
      exact hkeys k hm
    cases hid' : lookupA kvs "id" with
    | none => rw [hid'] at hid; simp at hid
    | some j =>
      rw [hid'] at hid
      cases j with
      | str i =>
        cases htl' : lookupA kvs "title" with
        | none => rw [htl'] at htl; simp at htl
        | some j2 =>
          rw [htl'] at htl
          cases j2 with
          | str t =>
            cases hattr' : lookupA kvs "attributes" with
            | none =>
              cases hch' : lookupA kvs "children" with
              | none =>
                refine ⟨⟨t, i, [], []⟩, ?_, ?_, ?_⟩
                · simp [Node.from_json, hid', htl', hattr', hch']
                · simp [docId, hid']
                · exact create_json_pyEq hnd hkeys' hid' htl' (by simpa using hattr')
                    (by simpa using hch')
              | some j3 =>
                rw [hch'] at hch
                cases j3 with
                | arr csj =>
                  simp only [Bool.and_eq_true] at hch
                  obtain ⟨l, hl1, hl2⟩ := strListOf_of_all_str hch.2
                  have hlne : ¬ l.isEmpty := by
                    intro hle
                    rw [List.isEmpty_iff] at hle
                    subst hle
                    simp at hl2
                    rw [hl2] at hch
                    simp at hch
                  refine ⟨⟨t, i, [], l⟩, ?_, ?_, ?_⟩
                  · simp [Node.from_json, hid', htl', hattr', hch', hl1]
                  · simp [docId, hid']
                  · exact create_json_pyEq hnd hkeys' hid' htl' (by simpa using hattr')
                      (by simp [hlne, hch', hl2])
                | str s => simp at hch
                | num n => simp at hch
                | bool b => simp at hch
                | obj o => simp at hch
            | some ja =>
              rw [hattr'] at hattr
              cases ja with
              | obj a =>
                have hane : ¬ a.isEmpty := by simpa using hattr
                cases hch' : lookupA kvs "children" with
                | none =>
                  refine ⟨⟨t, i, a, []⟩, ?_, ?_, ?_⟩
                  · simp [Node.from_json, hid', htl', hattr', hch']
                  · simp [docId, hid']
                  · exact create_json_pyEq hnd hkeys' hid' htl' (by simp [hane, hattr'])
                      (by simpa using hch')
                | some j3 =>
                  rw [hch'] at hch
                  cases j3 with
                  | arr csj =>
                    simp only [Bool.and_eq_true] at hch
                    obtain ⟨l, hl1, hl2⟩ := strListOf_of_all_str hch.2
                    have hlne : ¬ l.isEmpty := by
                      intro hle
                      rw [List.isEmpty_iff] at hle
                      subst hle
                      simp at hl2
                      rw [hl2] at hch
                      simp at hch
                    refine ⟨⟨t, i, a, l⟩, ?_, ?_, ?_⟩
                    · simp [Node.from_json, hid', htl', hattr', hch', hl1]
                    · simp [docId, hid']
                    · exact create_json_pyEq hnd hkeys' hid' htl' (by simp [hane, hattr'])
                        (by simp [hlne, hch', hl2])
                  | str s => simp at hch
                  | num n => simp at hch
                  | bool b => simp at hch
                  | obj o => simp at hch
              | str s => simp at hattr
              | num n => simp at hattr
              | bool b => simp at hattr
              | arr l => simp at hattr
          | num n => simp at htl
          | bool b => simp at htl
          | arr l => simp at htl
          | obj o => simp at htl
      | num n => simp at hid
      | bool b => simp at hid
      | arr l => simp at hid
      | obj o => simp at hid

theorem insertA_not_mem {α : Type} {l : List (String × α)} {k : String}
    (h : k ∉ keysA l) (v : α) : insertA l k v = l ++ [(k, v)] := by
  induction l with
  | nil => rfl
  | cons p rest ih =>
    obtain ⟨k₀, w⟩ := p
    simp only [keysA_cons, List.mem_cons, not_or] at h
    simp [insertA, h.1, ih h.2]

/-- Behind node_roundtrip, the total parse companion is exact: the parse
succeeds onto it, the document id is its key, serialization inverts. -/
theorem parseEntry_spec {d : Json} (hv : validNodeDocB d = true) :
    Node.from_json d = some (parseEntry d).2 ∧ docId d = some (parseEntry d).1
      ∧ (parseEntry d).2.id = (parseEntry d).1
      ∧ Json.pyEq (parseEntry d).2.create_json d := by
  obtain ⟨n, h1, h2, h3⟩ := node_roundtrip hv
  have he : parseEntry d = (n.id, n) := by simp [parseEntry, h1]
  rw [he]
  exact ⟨h1, h2, rfl, h3⟩

theorem filterMap_eq_map_of_some {α β : Type} {l : List α} {f : α → Option β} {g : α → β}
    (h : ∀ a ∈ l, f a = some (g a)) : l.filterMap f = l.map g := by
  induction l with
  | nil => rfl
  | cons a rest ih =>
    rw [List.filterMap_cons, h a (by simp), List.map_cons,
      ih (fun a ha => h a (List.mem_cons_of_mem _ ha))]

/-- Generalized-accumulator form of the node-array parse: on valid
documents with distinct fresh ids the dict build is a plain append. -/
theorem parseNodes_acc (docs : List Json) : ∀ acc : List (String × Node),
    (∀ d ∈ docs, validNodeDocB d = true) →
    (keysA acc ++ docs.filterMap docId).Nodup →
    docs.foldl
        (fun a d => a.bind (fun m => (Node.from_json d).map (fun n => insertA m n.id n)))
        (some acc)
      = some (acc ++ docs.map parseEntry) := by
  induction docs with
  | nil => intro acc _ _; simp
  | cons d docs ih =>
    intro acc hv hnd
    obtain ⟨h1, h2, hidk, _⟩ := parseEntry_spec (hv d (by simp))
    have hfm : (d :: docs).filterMap docId = (parseEntry d).1 :: docs.filterMap docId := by
      rw [List.filterMap_cons, h2]
    rw [hfm] at hnd
    have hfresh : (parseEntry d).1 ∉ keysA acc := by
      intro hm
      have hdisj := (List.nodup_append.mp hnd).2.2
      exact hdisj hm (by simp)
    rw [List.foldl_cons]
    have hstep : (some acc).bind (fun m => (Node.from_json d).map (fun n => insertA m n.id n))
        = some (acc ++ [parseEntry d]) := by
      simp [h1, hidk, insertA_not_mem hfresh]
    rw [hstep]
    have hnd' : (keysA (acc ++ [parseEntry d]) ++ docs.filterMap docId).Nodup := by
      rw [keysA_append]
      have : keysA [parseEntry d] = [(parseEntry d).1] := rfl
      rw [this, List.append_assoc, List.singleton_append]
      exact hnd
    rw [ih (acc ++ [parseEntry d]) (fun d' hm => hv d' (List.mem_cons_of_mem _ hm)) hnd']
    simp

/-- The node-array parse on valid documents with distinct ids yields the
entries in document order. -/
theorem parseNodes_eq {docs : List Json}
    (hv : ∀ d ∈ docs, validNodeDocB d = true)
    (hnd : (docs.filterMap docId).Nodup) :
    parseNodes docs = some (docs.map parseEntry) := by
  have h := parseNodes_acc docs [] hv (by simpa [keysA] using hnd)
  simpa [parseNodes] using h

/-- Round-trip for a tree document: parsing succeeds and
re-serialization is Python-equal to the original. -/
theorem tree_roundtrip {d : Json} (hv : validTreeDocB d = true) :
    ∃ t : Tree, Tree.from_json d = some t ∧ Json.pyEq t.create_json d := by
  unfold validTreeDocB at hv
  split at hv
  next dd =>
    simp only [Bool.and_eq_true, decide_eq_true_eq, List.all_eq_true] at hv
    obtain ⟨⟨⟨⟨hnd_dd, hkeys_dd⟩, hnm⟩, htl⟩, htr⟩ := hv
    cases hnm' : lookupA dd "name" with
    | none => rw [hnm'] at hnm; simp at hnm
    | some jn =>
      rw [hnm'] at hnm
      cases jn with
      | str name =>
        cases htl' : lookupA dd "title" with
        | none => rw [htl'] at htl; simp at htl
        | some jt =>
          rw [htl'] at htl
          cases jt with
          | str title =>
            split at htr
            next e heq =>
              simp only [Bool.and_eq_true, decide_eq_true_eq, List.all_eq_true] at htr
              obtain ⟨⟨⟨hnd_e, hkeys_e⟩, hrt⟩, hns⟩ := htr
              cases hrt' : lookupA e "root" with
              | none => rw [hrt'] at hrt; simp at hrt
              | some jr =>
                rw [hrt'] at hrt
                cases jr with
                | str root =>
                  split at hns
                  next docs heq2 =>
                    simp only [Bool.and_eq_true, decide_eq_true_eq, List.all_eq_true] at hns
                    obtain ⟨⟨hne, hall⟩, hndids⟩ := hns
                    have hpn := parseNodes_eq hall hndids
                    refine ⟨⟨name, title, docs.map parseEntry, root⟩, ?_, ?_⟩
                    · simp only [Tree.from_json]
                      have hdl : lookupA [("data", Json.obj dd)] "data" = some (.obj dd) := by
                        simp [lookupA]
                      rw [hdl]
                      dsimp only
                      rw [hnm', htl', heq]
                      dsimp only
                      rw [heq2, hrt']
                      dsimp only
                      simp only [Bool.not_eq_true'] at hne
                      simp [hne, hpn]
                    · show (Tree.create_json _).canon = _
                      unfold Tree.create_json
                      refine canon_obj_congr ?_ ?_ ?_
                      · simp [NodupKeys, keysA]
                      · simp [NodupKeys, keysA]
                      intro k
                      by_cases hk : k = "data"
                      · subst hk
                        simp only [lookupA, if_pos rfl, Option.map_some]
                        refine congrArg some ?_
                        refine canon_obj_congr ?_ hnd_dd ?_
                        · simp [NodupKeys, keysA]
                        intro k2
                        by_cases hk2 : k2 = "name"
                        · subst hk2
                          simp [lookupA, hnm']
                        · by_cases hk3 : k2 = "title"
                          · subst hk3
                            simp [lookupA, htl']
                          · by_cases hk4 : k2 = "trees"
                            · subst hk4
                              rw [heq]
                              simp only [lookupA, if_neg (by decide : ¬ ("trees" : String) = "name"),
                                if_neg (by decide : ¬ ("trees" : String) = "title"), if_pos rfl,
                                Option.map_some]
                              refine congrArg some ?_
                              rw [canon_arr, canon_arr, canonList_map, canonList_map]
                              simp only [List.map_cons, List.map_nil]
                              refine congrArg Json.arr (congrArg (· :: []) ?_)
                              refine canon_obj_congr ?_ hnd_e ?_
                              · simp [NodupKeys, keysA]
                              intro k3
                              by_cases hk5 : k3 = "nodes"
                              · subst hk5
                                rw [heq2]
                                simp only [lookupA, if_pos rfl, Option.map_some]
                                refine congrArg some ?_
                                rw [canon_arr, canon_arr, canonList_map, canonList_map]
                                refine congrArg Json.arr ?_
                                rw [List.map_map, List.map_map]
                                refine List.map_congr_left ?_
                                intro d' hm
                                exact (parseEntry_spec (hall d' hm)).2.2.2
                              · by_cases hk6 : k3 = "root"
                                · subst hk6
                                  simp [lookupA, hrt']
                                · have hnone : lookupA e k3 = none := by
                                    refine lookupA_eq_none_of_not_mem_keys ?_
                                    intro hm
                                    have := hkeys_e k3 hm
                                    simp [hk5, hk6] at this
                                  simp [lookupA, hk5, hk6, hnone]
                            · have hnone : lookupA dd k2 = none := by
                                refine lookupA_eq_none_of_not_mem_keys ?_
                                intro hm
                                have := hkeys_dd k2 hm
                                simp [hk2, hk3, hk4] at this
                              simp [lookupA, hk2, hk3, hk4, hnone]
                      · simp [lookupA, hk]
                  next => simp at hns
                | num n => simp at hrt
                | bool b => simp at hrt
                | arr l => simp at hrt
                | obj o => simp at hrt
            next => simp at htr
          | num n => simp at htl
          | bool b => simp at htl
          | arr l => simp at htl
          | obj o => simp at htl
      | num n => simp at hnm
      | bool b => simp at hnm
      | arr l => simp at hnm
      | obj o => simp at hnm
  next => simp at hv

/-- C1: round-trip serialization — for every valid node document and
every valid tree document, parsing succeeds and re-serializing the parse
result yields a document Python-equal to the original (the minimal-key
omission policy of the serializer matches the parser's defaulting
exactly). -/
theorem C1_roundtrip (dn dt : Json)
    (hn : validNodeDocB dn = true) (ht : validTreeDocB dt = true) :
    (∃ n : Node, Node.from_json dn = some n ∧ Json.pyEq n.create_json dn) ∧
    (∃ t : Tree, Tree.from_json dt = some t ∧ Json.pyEq t.create_json dt) := by
  obtain ⟨n, h1, _, h3⟩ := node_roundtrip hn
  exact ⟨⟨n, h1, h3⟩, tree_roundtrip ht⟩

/-- Witness for C1 on concrete key-shuffled documents. -/
theorem C1_roundtrip_witness :
    (validNodeDocB permNodeDoc = true ∧ validTreeDocB permTreeDoc = true) ∧
    ((∃ n : Node, Node.from_json permNodeDoc = some n
        ∧ Json.pyEq n.create_json permNodeDoc) ∧
     (∃ t : Tree, Tree.from_json permTreeDoc = some t
        ∧ Json.pyEq t.create_json permTreeDoc)) :=
  ⟨⟨by decide, by decide⟩, C1_roundtrip permNodeDoc permTreeDoc (by decide) (by decide)⟩

-- ===== C6: cycle detection =====

theorem inrsOf_append (a b : List (Sum String String)) :
    inrsOf (a ++ b) = inrsOf a ++ inrsOf b := by
  induction a with
  | nil => simp [inrsOf]
  | cons x rest ih => cases x <;> simp [inrsOf, ih]

theorem inrsOf_map_inl (l : List String) : inrsOf (l.map Sum.inl) = [] := by
  induction l with
  | nil => rfl
  | cons x rest ih => simp [inrsOf, ih]

theorem countP_lt_of_mem {l : List String} {p q : String → Bool} {i : String}
    (him : i ∈ l) (hp : p i = true) (hq : q i = false)
    (himp : ∀ k, q k = true → p k = true) :
    l.countP q + 1 ≤ l.countP p := by
  induction l with
  | nil => simp at him
  | cons a rest ih =>
    rcases List.mem_cons.mp him with h | h
    · subst h
      rw [List.countP_cons, List.countP_cons, hp, hq]
      have hmono : rest.countP q ≤ rest.countP p :=
        List.countP_mono_left (fun k _ hk => himp k hk)
      simp
      omega
    · rw [List.countP_cons, List.countP_cons]
      have := ih h
      by_cases hqa : q a = true
      · rw [hqa, himp a hqa]; omega
      · rw [Bool.not_eq_true] at hqa
        rw [hqa]
        cases hpa : p a <;> simp <;> omega

theorem cyc_count_exit (ns : List (String × Node)) (i : String) (vis tl : List String) :
    (keyList ns).countP (fun k => decide (k ∉ i :: vis ∧ k ∉ tl))
      = (keyList ns).countP (fun k => decide (k ∉ vis ∧ k ∉ i :: tl)) := by
  refine List.countP_congr ?_
  intro k _
  simp only [decide_eq_true_eq, List.mem_cons, not_or]
  tauto

theorem cyc_arith {ch C rl U Up f : Nat} (h1 : ch ≤ C) (h2 : Up + 1 ≤ U)
    (h3 : rl + 1 + U * (C + 2) ≤ f + 1) :
    ch + 1 + rl + Up * (C + 2) ≤ f := by
  have hmul : (Up + 1) * (C + 2) ≤ U * (C + 2) := mul_le_mul_right' h2 (C + 2)
  rw [Nat.add_mul, Nat.one_mul] at hmul
  obtain ⟨a, ha⟩ : ∃ a, Up * (C + 2) = a := ⟨_, rfl⟩
  obtain ⟨b, hb⟩ : ∃ b, U * (C + 2) = b := ⟨_, rfl⟩
  rw [ha] at hmul ⊢
  rw [hb] at hmul h3
  omega

/-- The a-priori fuel always suffices: the cycle search returns some on
any state whose potential is within the fuel and whose exit markers spell
the path. -/
theorem cycF_isSome (ns : List (String × Node)) :
    ∀ fuel path vis work vios, inrsOf work = path →
      cycPot ns path vis work ≤ fuel →
      (cycF ns fuel path vis work vios).isSome = true := by
  intro fuel
  induction fuel with
  | zero =>
    intro path vis work vios hinr hpot
    cases work with
    | nil => simp [cycF]
    | cons w rest =>
      exfalso
      simp [cycPot] at hpot
  | succ f ih =>
    intro path vis work vios hinr hpot
    cases work with
    | nil => simp [cycF]
    | cons w rest =>
      cases w with
      | inr i =>
        simp only [inrsOf] at hinr
        rw [← hinr] at hpot
        show (cycF ns f path.tail (i :: vis) rest vios).isSome = true
        rw [← hinr]
        refine ih _ _ _ _ rfl ?_
        simp only [List.tail_cons]
        simp only [cycPot, List.length_cons] at hpot ⊢
        rw [cyc_count_exit]
        omega
      | inl i =>
        simp only [inrsOf] at hinr
        by_cases hp : i ∈ path
        · show (cycF ns (f + 1) path vis (.inl i :: rest) vios).isSome = true
          rw [cycF, if_pos hp]
          refine ih _ _ _ _ hinr ?_
          simp only [cycPot, List.length_cons] at hpot ⊢
          omega
        · by_cases hv : i ∈ vis
          · show (cycF ns (f + 1) path vis (.inl i :: rest) vios).isSome = true
            rw [cycF, if_neg hp, if_pos hv]
            refine ih _ _ _ _ hinr ?_
            simp only [cycPot, List.length_cons] at hpot ⊢
            omega
          · cases hl : lookupA ns i with
            | none =>
              show (cycF ns (f + 1) path vis (.inl i :: rest) vios).isSome = true
              rw [cycF, if_neg hp, if_neg hv, hl]
              refine ih _ _ _ _ hinr ?_
              simp only [cycPot, List.length_cons] at hpot ⊢
              omega
            | some n =>
              show (cycF ns (f + 1) path vis (.inl i :: rest) vios).isSome = true
              rw [cycF, if_neg hp, if_neg hv, hl]
              refine ih _ _ _ _ ?_ ?_
              · simp [inrsOf_append, inrsOf_map_inl, inrsOf, hinr]
              · simp only [cycPot, List.length_append, List.length_map,
                  List.length_cons] at hpot ⊢
                have hch : n.children.length ≤ totalChildren ns :=
                  children_le_totalChildren hl
                have hcnt : (keyList ns).countP
                      (fun k => decide (k ∉ vis ∧ k ∉ i :: path)) + 1
                    ≤ (keyList ns).countP (fun k => decide (k ∉ vis ∧ k ∉ path)) := by
                  refine countP_lt_of_mem (mem_keys_of_lookupA hl) ?_ ?_ ?_
                  · simp [hv, hp]
                  · simp
                  · intro k hk
                    simp only [decide_eq_true_eq, List.mem_cons, not_or] at hk ⊢
                    exact ⟨hk.1, hk.2.2⟩
                have := cyc_arith hch hcnt (by omega :
                  rest.length + 1
                    + ((keyList ns).countP (fun k => decide (k ∉ vis ∧ k ∉ path)))
                      * (totalChildren ns + 2) ≤ f + 1)
                omega

theorem chainTo_tail {ns : List (String × Node)} {root : String} :
    ∀ {path : List String}, ChainTo ns root path → ChainTo ns root path.tail
  | [], _ => trivial
  | [_], _ => trivial
  | _ :: _ :: _, h => h.2

theorem chainTo_root_reach {ns : List (String × Node)} {root : String} :
    ∀ {path : List String}, ChainTo ns root path → ∀ i ∈ path, ReachN ns root i := by
  intro path
  induction path with
  | nil => intro _ i hi; simp at hi
  | cons p rest ih =>
    intro h i hi
    cases rest with
    | nil =>
      rw [List.mem_singleton.mp hi]
      exact h
    | cons q rest2 =>
      rcases List.mem_cons.mp hi with h1 | h1
      · rw [h1]
        exact Relation.ReflTransGen.tail (ih h.2 q (by simp)) h.1
      · exact ih h.2 i h1

theorem chainTo_reach_head {ns : List (String × Node)} {root : String} :
    ∀ {path : List String} {p : String}, ChainTo ns root (p :: path) →
      ∀ i ∈ p :: path, ReachN ns i p := by
  intro path
  induction path with
  | nil =>
    intro p _ i hi
    rw [List.mem_singleton.mp hi]
    exact Relation.ReflTransGen.refl
  | cons q rest ih =>
    intro p h i hi
    rcases List.mem_cons.mp hi with h1 | h1
    · rw [h1]
      exact Relation.ReflTransGen.refl
    · exact Relation.ReflTransGen.tail (ih h.2 i h1) h.1

theorem WInv_pop_inl {ns : List (String × Node)} {root i : String}
    {work : List (Sum String String)} {path : List String}
    (h : WInv ns root (Sum.inl i :: work) path) :
    WInv ns root work path
    ∧ ((path = [] ∧ ReachN ns root i) ∨ ∃ p rest, path = p :: rest ∧ EdgeN ns p i) := by
  generalize hw : (Sum.inl i :: work : List (Sum String String)) = w0 at h
  cases h with
  | base B hni hre =>
    subst hw
    exact ⟨WInv.base work (fun x hx => hni x (List.mem_cons_of_mem _ hx))
        (fun c hc => hre c (List.mem_cons_of_mem _ hc)),
      Or.inl ⟨rfl, hre i (by simp)⟩⟩
  | step B p w2 path2 hni hedge hsub =>
    cases B with
    | nil => simp at hw
    | cons b B2 =>
      simp only [List.cons_append, List.cons.injEq] at hw
      obtain ⟨hb, hrest⟩ := hw
      subst hb
      constructor
      · rw [hrest]
        exact WInv.step B2 p w2 path2 (fun x hx => hni x (List.mem_cons_of_mem _ hx))
          (fun c hc => hedge c (List.mem_cons_of_mem _ hc)) hsub
      · exact Or.inr ⟨p, path2, rfl, hedge i (by simp)⟩

theorem WInv_pop_inr {ns : List (String × Node)} {root i : String}
    {work : List (Sum String String)} {path : List String}
    (h : WInv ns root (Sum.inr i :: work) path) :
    ∃ rest, path = i :: rest ∧ WInv ns root work rest := by
  generalize hw : (Sum.inr i :: work : List (Sum String String)) = w0 at h
  cases h with
  | base B hni hre =>
    subst hw
    exact absurd (List.mem_cons_self _ _) (hni i)
  | step B p w2 path2 hni hedge hsub =>
    cases B with
    | cons b B2 =>
      simp only [List.cons_append, List.cons.injEq] at hw
      obtain ⟨hb, _⟩ := hw
      subst hb
      exact absurd (List.mem_cons_self _ _) (hni i)
    | nil =>
      simp only [List.nil_append, List.cons.injEq, Sum.inr.injEq] at hw
      obtain ⟨hp, hw2⟩ := hw
      refine ⟨path2, by rw [hp], ?_⟩
      rw [hw2]
      exact hsub

/-- Violations are only appended, never dropped. -/
theorem cycF_vios_mono (ns : List (String × Node)) :
    ∀ fuel path vis work vios fvis fvios,
      cycF ns fuel path vis work vios = some (fvis, fvios) →
      ∃ s, fvios = vios ++ s := by
  intro fuel
  induction fuel with
  | zero =>
    intro path vis work vios fvis fvios h
    cases work with
    | nil =>
      simp [cycF] at h
      exact ⟨[], by simp [h.2]⟩
    | cons w rest => simp [cycF] at h
  | succ f ih =>
    intro path vis work vios fvis fvios h
    cases work with
    | nil =>
      simp [cycF] at h
      exact ⟨[], by simp [h.2]⟩
    | cons w rest =>
      cases w with
      | inr i =>
        simp only [cycF] at h
        exact ih _ _ _ _ _ _ h
      | inl i =>
        simp only [cycF] at h
        by_cases hp : i ∈ path
        · rw [if_pos hp] at h
          obtain ⟨s, hs⟩ := ih _ _ _ _ _ _ h
          refine ⟨i :: s, ?_⟩
          rw [hs, List.append_assoc]
          rfl
        · rw [if_neg hp] at h
          by_cases hv : i ∈ vis
          · rw [if_pos hv] at h
            exact ih _ _ _ _ _ _ h
          · rw [if_neg hv] at h
            cases hl : lookupA ns i with
            | none => rw [hl] at h; exact ih _ _ _ _ _ _ h
            | some n => rw [hl] at h; exact ih _ _ _ _ _ _ h

/-- Soundness of the cycle search: every reported violation beyond the
initial ones lies on a genuine cycle reachable from the root. -/
theorem cycF_sound (ns : List (String × Node)) (root : String) :
    ∀ fuel path vis work vios fvis fvios,
      cycF ns fuel path vis work vios = some (fvis, fvios) →
      WInv ns root work path → ChainTo ns root path →
      ∀ v ∈ fvios, v ∈ vios
        ∨ (ReachN ns root v ∧ Relation.TransGen (EdgeN ns) v v) := by
  intro fuel
  induction fuel with
  | zero =>
    intro path vis work vios fvis fvios h hW hC v hv
    cases work with
    | nil =>
      simp [cycF] at h
      exact Or.inl (by rw [← h.2] at hv; exact hv)
    | cons w rest => simp [cycF] at h
  | succ f ih =>
    intro path vis work vios fvis fvios h hW hC v hv
    cases work with
    | nil =>
      simp [cycF] at h
      exact Or.inl (by rw [← h.2] at hv; exact hv)
    | cons w rest =>
      cases w with
      | inr i =>
        simp only [cycF] at h
        obtain ⟨rest2, hpath, hW2⟩ := WInv_pop_inr hW
        subst hpath
        exact ih rest2 (i :: vis) rest vios fvis fvios h hW2 (chainTo_tail hC) v hv
      | inl i =>
        simp only [cycF] at h
        obtain ⟨hW2, hcase⟩ := WInv_pop_inl hW
        by_cases hp : i ∈ path
        · rw [if_pos hp] at h
          have hcyc : ReachN ns root i ∧ Relation.TransGen (EdgeN ns) i i := by
            rcases hcase with ⟨hnil, _⟩ | ⟨p, rest2, hpe, hE⟩
            · rw [hnil] at hp; simp at hp
            · subst hpe
              have hreach : ReachN ns i p := chainTo_reach_head hC i hp
              exact ⟨chainTo_root_reach hC i hp, Relation.TransGen.tail' hreach hE⟩
          rcases ih _ _ _ _ _ _ h hW2 hC v hv with hin | hcy
          · rcases List.mem_append.mp hin with h1 | h1
            · exact Or.inl h1
            · rw [List.mem_singleton.mp h1]
              exact Or.inr hcyc
          · exact Or.inr hcy
        · rw [if_neg hp] at h
          by_cases hv2 : i ∈ vis
          · rw [if_pos hv2] at h
            exact ih _ _ _ _ _ _ h hW2 hC v hv
          · rw [if_neg hv2] at h
            cases hl : lookupA ns i with
            | none =>
              rw [hl] at h
              exact ih _ _ _ _ _ _ h hW2 hC v hv
            | some n =>
              rw [hl] at h
              have hWnew : WInv ns root
                  (n.children.map Sum.inl ++ Sum.inr i :: rest) (i :: path) := by
                refine WInv.step _ i rest path ?_ ?_ hW2
                · intro x hx
                  simp at hx
                · intro c hc
                  rcases List.mem_map.mp hc with ⟨c2, hc2, hceq⟩
                  cases hceq
                  exact ⟨n, hl, hc2⟩
              have hCnew : ChainTo ns root (i :: path) := by
                rcases hcase with ⟨hnil, hre⟩ | ⟨p, rest2, hpe, hE⟩
                · rw [hnil]
                  exact hre
                · subst hpe
                  exact ⟨hE, hC⟩
              exact ih _ _ _ _ _ _ h hWnew hCnew v hv

theorem TS_step {ns : List (String × Node)} : ∀ {vis : List String} {a b : String},
    TopSorted ns vis → a ∈ vis → EdgeN ns a b → resolvesB ns b = true → b ∈ vis := by
  intro vis
  induction vis with
  | nil => intro a b _ ha; simp at ha
  | cons i rest ih =>
    intro a b hTS ha hE hr
    rcases List.mem_cons.mp ha with h1 | h1
    · subst h1
      exact List.mem_cons_of_mem _ (hTS.1 b hE hr)
    · exact List.mem_cons_of_mem _ (ih hTS.2 h1 hE hr)

theorem TS_mem_closed {ns : List (String × Node)} {vis : List String}
    (hTS : TopSorted ns vis) {c d : String} (hc : c ∈ vis)
    (hR : Relation.ReflTransGen (EdgeN ns) c d) (hr : resolvesB ns d = true) :
    d ∈ vis := by
  revert hc
  induction hR using Relation.ReflTransGen.head_induction_on with
  | refl => intro hd; exact hd
  | head hrel hsub ih =>
    intro ha
    refine ih (TS_step hTS ha hrel ?_)
    rcases Relation.ReflTransGen.cases_head hsub with heq | ⟨e, he, _⟩
    · rw [heq]; exact hr
    · obtain ⟨n, hln, _⟩ := he
      simp [resolvesB, hln]

theorem TS_no_cycle {ns : List (String × Node)} : ∀ {vis : List String},
    TopSorted ns vis → vis.Nodup → ∀ x ∈ vis, ¬ Relation.TransGen (EdgeN ns) x x := by
  intro vis
  induction vis with
  | nil => intro _ _ x hx; simp at hx
  | cons i rest ih =>
    intro hTS hnd x hx hcyc
    rcases List.mem_cons.mp hx with h1 | h1
    · subst h1
      obtain ⟨c, hE, hR⟩ := Relation.TransGen.head'_iff.mp hcyc
      have hresc : resolvesB ns c = true := by
        rcases Relation.ReflTransGen.cases_head hR with heq | ⟨e, he, _⟩
        · subst heq
          obtain ⟨n, hln, _⟩ := hE
          simp [resolvesB, hln]
        · obtain ⟨n, hln, _⟩ := he
          simp [resolvesB, hln]
      have hresx : resolvesB ns x = true := by
        obtain ⟨n, hln, _⟩ := hE
        simp [resolvesB, hln]
      have hcr : c ∈ rest := hTS.1 c hE hresc
      have hxr : x ∈ rest :=
        TS_mem_closed hTS.2 hcr hR hresx
      exact (List.nodup_cons.mp hnd).1 hxr
    · exact ih hTS.2 (List.nodup_cons.mp hnd).2 x h1 hcyc

theorem SegInv_mono {ns : List (String × Node)} {root : String} {vis : List String} :
    ∀ {above work path}, SegInv ns root vis above work path →
      ∀ {vis2 above2 : List String},
        (∀ c, c ∈ vis ∨ c ∈ above → c ∈ vis2 ∨ c ∈ above2) →
        SegInv ns root vis2 above2 work path := by
  intro above work path h
  induction h with
  | base a B hni hre =>
    intro vis2 above2 _
    exact SegInv.base above2 B hni hre
  | step a B p w pa hni hedge hobl hsub ih =>
    intro vis2 above2 htr
    refine SegInv.step above2 B p w pa hni hedge ?_ ?_
    · intro c hE hres
      rcases hobl c hE hres with hc | hc | hc
      · rcases htr c (Or.inl hc) with h2 | h2
        · exact Or.inl h2
        · exact Or.inr (Or.inr h2)
      · exact Or.inr (Or.inl hc)
      · rcases htr c (Or.inr hc) with h2 | h2
        · exact Or.inl h2
        · exact Or.inr (Or.inr h2)
    · refine ih ?_
      intro c hc
      rcases hc with hc | hc
      · rcases htr c (Or.inl hc) with h2 | h2
        · exact Or.inl h2
        · exact Or.inr (List.mem_append.mpr (Or.inl h2))
      · rcases List.mem_append.mp hc with hc2 | hc2
        · rcases htr c (Or.inr hc2) with h2 | h2
          · exact Or.inl h2
          · exact Or.inr (List.mem_append.mpr (Or.inl h2))
        · exact Or.inr (List.mem_append.mpr (Or.inr hc2))

theorem SegInv_nil_work {ns : List (String × Node)} {root : String}
    {vis above path : List String}
    (h : SegInv ns root vis above ([] : List (Sum String String)) path) : path = [] := by
  generalize hw : ([] : List (Sum String String)) = w0 at h
  cases h with
  | base a B hni hre => rfl
  | step a B p w pa hni hedge hobl hsub => exact absurd hw.symm (by simp)

theorem SegInv_pop_inl {ns : List (String × Node)} {root i : String}
    {vis above : List String} {work : List (Sum String String)} {path : List String}
    (h : SegInv ns root vis above (Sum.inl i :: work) path) :
    ((path = [] ∧ ReachN ns root i) ∨ ∃ p rest, path = p :: rest ∧ EdgeN ns p i)
    ∧ ∀ vis2 above2 : List String,
        (∀ c, c ∈ vis ∨ c ∈ above → c ∈ vis2 ∨ c ∈ above2) →
        (i ∈ vis2 ∨ i ∈ above2 ∨ resolvesB ns i = false) →
        SegInv ns root vis2 above2 work path := by
  generalize hw : (Sum.inl i :: work : List (Sum String String)) = w0 at h
  cases h with
  | base a B hni hre =>
    subst hw
    refine ⟨Or.inl ⟨rfl, hre i (by simp)⟩, ?_⟩
    intro vis2 above2 _ _
    exact SegInv.base above2 work (fun x hx => hni x (List.mem_cons_of_mem _ hx))
      (fun c hc => hre c (List.mem_cons_of_mem _ hc))
  | step a B p w pa hni hedge hobl hsub =>
    cases B with
    | nil => simp at hw
    | cons b B2 =>
      simp only [List.cons_append, List.cons.injEq] at hw
      obtain ⟨hb, hrest⟩ := hw
      subst hb
      refine ⟨Or.inr ⟨p, pa, rfl, hedge i (by simp)⟩, ?_⟩
      intro vis2 above2 htr hICov
      rw [hrest]
      refine SegInv.step above2 B2 p w pa
        (fun x hx => hni x (List.mem_cons_of_mem _ hx))
        (fun c hc => hedge c (List.mem_cons_of_mem _ hc)) ?_ ?_
      · intro c hE hres
        rcases hobl c hE hres with hc | hc | hc
        · rcases htr c (Or.inl hc) with h2 | h2
          · exact Or.inl h2
          · exact Or.inr (Or.inr h2)
        · rcases List.mem_cons.mp hc with hc2 | hc2
          · obtain rfl : c = i := Sum.inl.inj hc2
            rcases hICov with hci | hci | hci
            · exact Or.inl hci
            · exact Or.inr (Or.inr hci)
            · rw [hci] at hres; exact absurd hres (by simp)
          · exact Or.inr (Or.inl hc2)
        · rcases htr c (Or.inr hc) with h2 | h2
          · exact Or.inl h2
          · exact Or.inr (Or.inr h2)
      · refine SegInv_mono hsub ?_
        intro c hc
        rcases hc with hc | hc
        · rcases htr c (Or.inl hc) with h2 | h2
          · exact Or.inl h2
          · exact Or.inr (List.mem_append.mpr (Or.inl h2))
        · rcases List.mem_append.mp hc with hc2 | hc2
          · rcases htr c (Or.inr hc2) with h2 | h2
            · exact Or.inl h2
            · exact Or.inr (List.mem_append.mpr (Or.inl h2))
          · exact Or.inr (List.mem_append.mpr (Or.inr hc2))

theorem SegInv_pop_inr {ns : List (String × Node)} {root i : String}
    {vis above : List String} {work : List (Sum String String)} {path : List String}
    (h : SegInv ns root vis above (Sum.inr i :: work) path) :
    ∃ rest, path = i :: rest
      ∧ SegInv ns root vis (above ++ [i]) work rest
      ∧ (∀ c, EdgeN ns i c → resolvesB ns c = true → c ∈ vis ∨ c ∈ above) := by
  generalize hw : (Sum.inr i :: work : List (Sum String String)) = w0 at h
  cases h with
  | base a B hni hre =>
    subst hw
    exact absurd (List.mem_cons_self _ _) (hni i)
  | step a B p w pa hni hedge hobl hsub =>
    cases B with
    | cons b B2 =>
      simp only [List.cons_append, List.cons.injEq] at hw
      obtain ⟨hb, _⟩ := hw
      subst hb
      exact absurd (List.mem_cons_self _ _) (hni i)
    | nil =>
      simp only [List.nil_append, List.cons.injEq, Sum.inr.injEq] at hw
      obtain ⟨hp, hw2⟩ := hw
      subst hp
      refine ⟨pa, rfl, by rw [hw2]; exact hsub, ?_⟩
      intro c hE hres
      rcases hobl c hE hres with hc | hc | hc
      · exact Or.inl hc
      · simp at hc
      · exact Or.inr hc

/-- When the cycle search finishes without recording any new violation,
the visit list it returns is a duplicate-free topological sort containing
the root (when the root resolves): the certificate that no reachable
cycle exists. -/
theorem cycF_noflag (ns : List (String × Node)) (root : String) :
    ∀ fuel path vis work vios fvis fvios,
      cycF ns fuel path vis work vios = some (fvis, fvios) →
      fvios = vios →
      SegInv ns root vis [] work path →
      path.Nodup → (∀ x ∈ path, x ∉ vis) → vis.Nodup → TopSorted ns vis →
      (resolvesB ns root = true → root ∈ vis ∨ Sum.inl root ∈ work ∨ root ∈ path) →
      fvis.Nodup ∧ TopSorted ns fvis ∧ (resolvesB ns root = true → root ∈ fvis) := by
  intro fuel
  induction fuel with
  | zero =>
    intro path vis work vios fvis fvios h hfv hS hpn hdisj hvn hTS hroot
    cases work with
    | nil =>
      simp [cycF] at h
      have hpe := SegInv_nil_work hS
      subst hpe
      refine ⟨by rw [← h.1]; exact hvn, by rw [← h.1]; exact hTS, ?_⟩
      intro hres
      rcases hroot hres with h2 | h2 | h2
      · rw [← h.1]; exact h2
      · simp at h2
      · simp at h2
    | cons w rest => simp [cycF] at h
  | succ f ih =>
    intro path vis work vios fvis fvios h hfv hS hpn hdisj hvn hTS hroot
    cases work with
    | nil =>
      simp [cycF] at h
      have hpe := SegInv_nil_work hS
      subst hpe
      refine ⟨by rw [← h.1]; exact hvn, by rw [← h.1]; exact hTS, ?_⟩
      intro hres
      rcases hroot hres with h2 | h2 | h2
      · rw [← h.1]; exact h2
      · simp at h2
      · simp at h2
    | cons w rest =>
      cases w with
      | inr i =>
        simp only [cycF] at h
        obtain ⟨rest2, hpath, hS2, hobl⟩ := SegInv_pop_inr hS
        subst hpath
        have hiv : i ∉ vis := hdisj i (by simp)
        have hndr : rest2.Nodup := (List.nodup_cons.mp hpn).2
        have hinr : i ∉ rest2 := (List.nodup_cons.mp hpn).1
        refine ih rest2 (i :: vis) rest vios fvis fvios h hfv ?_ hndr ?_ ?_ ?_ ?_
        · refine SegInv_mono hS2 ?_
          intro c hc
          rcases hc with hc | hc
          · exact Or.inl (List.mem_cons_of_mem _ hc)
          · rcases List.mem_append.mp hc with hc2 | hc2
            · simp at hc2
            · rw [List.mem_singleton.mp hc2]
              exact Or.inl (List.mem_cons_self _ _)
        · intro x hx
          intro hmem
          rcases List.mem_cons.mp hmem with h2 | h2
          · exact hinr (h2 ▸ hx)
          · exact hdisj x (List.mem_cons_of_mem _ hx) h2
        · exact List.nodup_cons.mpr ⟨hiv, hvn⟩
        · refine ⟨?_, hTS⟩
          intro c hE hres
          rcases hobl c hE hres with h2 | h2
          · exact h2
          · simp at h2
        · intro hres
          rcases hroot hres with h2 | h2 | h2
          · exact Or.inl (List.mem_cons_of_mem _ h2)
          · rcases List.mem_cons.mp h2 with h3 | h3
            · simp at h3
            · exact Or.inr (Or.inl h3)
          · rcases List.mem_cons.mp h2 with h3 | h3
            · exact Or.inl (h3 ▸ List.mem_cons_self _ _)
            · exact Or.inr (Or.inr h3)
      | inl i =>
        simp only [cycF] at h
        obtain ⟨hcase, hrebuild⟩ := SegInv_pop_inl hS
        by_cases hp : i ∈ path
        · rw [if_pos hp] at h
          exfalso
          obtain ⟨s, hs⟩ := cycF_vios_mono ns f path vis rest (vios ++ [i]) fvis fvios h
          rw [hfv] at hs
          have := congrArg List.length hs
          simp at this
        · rw [if_neg hp] at h
          by_cases hv2 : i ∈ vis
          · rw [if_pos hv2] at h
            refine ih path vis rest vios fvis fvios h hfv ?_ hpn hdisj hvn hTS ?_
            · exact hrebuild vis [] (fun c hc => hc) (Or.inl hv2)
            · intro hres
              rcases hroot hres with h2 | h2 | h2
              · exact Or.inl h2
              · rcases List.mem_cons.mp h2 with h3 | h3
                · exact Or.inl ((Sum.inl.inj h3) ▸ hv2)
                · exact Or.inr (Or.inl h3)
              · exact Or.inr (Or.inr h2)
          · rw [if_neg hv2] at h
            cases hl : lookupA ns i with
            | none =>
              rw [hl] at h
              refine ih path vis rest vios fvis fvios h hfv ?_ hpn hdisj hvn hTS ?_
              · exact hrebuild vis [] (fun c hc => hc)
                  (Or.inr (Or.inr (by simp [resolvesB, hl])))
              · intro hres
                rcases hroot hres with h2 | h2 | h2
                · exact Or.inl h2
                · rcases List.mem_cons.mp h2 with h3 | h3
                  · exfalso
                    rw [Sum.inl.inj h3] at hres
                    simp [resolvesB, hl] at hres
                  · exact Or.inr (Or.inl h3)
                · exact Or.inr (Or.inr h2)
            | some n =>
              rw [hl] at h
              have hSnew : SegInv ns root vis []
                  (n.children.map Sum.inl ++ Sum.inr i :: rest) (i :: path) := by
                refine SegInv.step [] (n.children.map Sum.inl) i rest path ?_ ?_ ?_ ?_
                · intro x hx
                  simp at hx
                · intro c hc
                  rcases List.mem_map.mp hc with ⟨c2, hc2, hceq⟩
                  cases hceq
                  exact ⟨n, hl, hc2⟩
                · intro c hE hres
                  obtain ⟨n2, hn2, hcc⟩ := hE
                  rw [hl] at hn2
                  refine Or.inr (Or.inl ?_)
                  exact List.mem_map.mpr ⟨c, (Option.some.inj hn2) ▸ hcc, rfl⟩
                · exact hrebuild vis ([] ++ [i]) (fun c hc => by
                    rcases hc with hc | hc
                    · exact Or.inl hc
                    · simp at hc) (Or.inr (Or.inl (by simp)))
              refine ih (i :: path) vis
                  (n.children.map Sum.inl ++ Sum.inr i :: rest) vios fvis fvios h hfv
                  hSnew (List.nodup_cons.mpr ⟨hp, hpn⟩) ?_ hvn hTS ?_
              · intro x hx
                rcases List.mem_cons.mp hx with h2 | h2
                · rw [h2]; exact hv2
                · exact hdisj x h2
              · intro hres
                rcases hroot hres with h2 | h2 | h2
                · exact Or.inl h2
                · rcases List.mem_cons.mp h2 with h3 | h3
                  · exact Or.inr (Or.inr ((Sum.inl.inj h3) ▸ List.mem_cons_self _ _))
                  · exact Or.inr (Or.inl (List.mem_append.mpr
                      (Or.inr (List.mem_cons_of_mem _ h3))))
                · exact Or.inr (Or.inr (List.mem_cons_of_mem _ h2))

/-- A ranking function decreasing along edges rules out cycles. -/
theorem no_cycle_of_rank {ns : List (String × Node)} (rank : String → Nat)
    (h : ∀ a b, EdgeN ns a b → rank b < rank a) :
    ∀ x, ¬ Relation.TransGen (EdgeN ns) x x := by
  intro x hx
  have hlt : ∀ {a b}, Relation.TransGen (EdgeN ns) a b → rank b < rank a := by
    intro a b hab
    induction hab with
    | single h1 => exact h _ _ h1
    | tail _ h2 ih => exact lt_trans (h _ _ h2) ih
  exact absurd (hlt hx) (lt_irrefl _)

/-- C6: cycle detection — the search always returns (the a-priori fuel
bound suffices, so it cannot loop); when some node's children include one
of its ancestors inside the reachable portion, at least one violation is
reported; a tree with no reachable cycle reports zero violations; on the
concrete cyclic fixture exactly the back-edge target on the current DFS
path is flagged (one violation, as in the test suite), and on the diamond
fixture the node reached a second time via another path is not
re-flagged (zero violations). -/
theorem C6_contains_cycles :
    (∀ t : Tree, (Verification.contains_cycles t).isSome = true)
    ∧ (∀ t : Tree,
        (∀ x, ReachN t.nodes t.root x → ¬ Relation.TransGen (EdgeN t.nodes) x x) →
        Verification.contains_cycles t = some [])
    ∧ (∀ t : Tree, ∀ A B, ReachN t.nodes t.root B → ReachN t.nodes B A →
        EdgeN t.nodes A B →
        ∃ vios, Verification.contains_cycles t = some vios ∧ vios ≠ [])
    ∧ Verification.contains_cycles cyclicTree = some ["r"]
    ∧ Verification.contains_cycles diamondTree = some [] := by
  have hterm : ∀ t : Tree,
      (cycF t.nodes (cycPot t.nodes [] [] [.inl t.root]) [] [] [.inl t.root] []).isSome
        = true := by
    intro t
    exact cycF_isSome t.nodes (cycPot t.nodes [] [] [.inl t.root]) [] [] [.inl t.root] []
      rfl (le_refl _)
  refine ⟨?_, ?_, ?_, ?_, ?_⟩
  · intro t
    obtain ⟨r, hr⟩ := Option.isSome_iff_exists.mp (hterm t)
    simp [Verification.contains_cycles, hr]
  · intro t hacy
    obtain ⟨⟨fvis, fvios⟩, hr⟩ := Option.isSome_iff_exists.mp (hterm t)
    have hsound := cycF_sound t.nodes t.root _ [] [] [.inl t.root] [] fvis fvios hr
      (WInv.base [.inl t.root] (fun x hx => by simp at hx)
        (fun c hc => by
          rw [show c = t.root by simpa using hc]
          exact Relation.ReflTransGen.refl))
      trivial
    have hemp : fvios = [] := by
      rw [List.eq_nil_iff_forall_not_mem]
      intro v hv
      rcases hsound v hv with h2 | h2
      · simp at h2
      · exact hacy v h2.1 h2.2
    simp [Verification.contains_cycles, hr, hemp]
  · intro t A B hrB hBA hE
    obtain ⟨⟨fvis, fvios⟩, hr⟩ := Option.isSome_iff_exists.mp (hterm t)
    refine ⟨fvios, by simp [Verification.contains_cycles, hr], ?_⟩
    intro hemp
    subst hemp
    have hnf := cycF_noflag t.nodes t.root _ [] [] [.inl t.root] [] fvis [] hr rfl
      (SegInv.base [] [.inl t.root] (fun x hx => by simp at hx)
        (fun c hc => by
          rw [show c = t.root by simpa using hc]
          exact Relation.ReflTransGen.refl))
      (by simp) (by simp) (by simp) trivial
      (fun _ => Or.inr (Or.inl (by simp)))
    obtain ⟨hndv, hTSv, hrootv⟩ := hnf
    have hresB : resolvesB t.nodes B = true := by
      rcases Relation.ReflTransGen.cases_head hBA with heq | ⟨e, he, _⟩
      · obtain ⟨n, hln, _⟩ := hE
        rw [← heq] at hln
        simp [resolvesB, hln]
      · obtain ⟨n, hln, _⟩ := he
        simp [resolvesB, hln]
    have hresroot : resolvesB t.nodes t.root = true := by
      rcases Relation.ReflTransGen.cases_head hrB with heq | ⟨e, he, _⟩
      · rw [heq]; exact hresB
      · obtain ⟨n, hln, _⟩ := he
        simp [resolvesB, hln]
    have hBin : B ∈ fvis := TS_mem_closed hTSv (hrootv hresroot) hrB hresB
    exact TS_no_cycle hTSv hndv B hBin (Relation.TransGen.tail' hBA hE)
  · rfl
  · rfl

/-- Witness for C6: the acyclicity hypothesis discharged by a ranking
function on the concrete two-node tree, and the ancestor-back-edge
hypothesis instantiated on the cyclic fixture. -/
theorem C6_contains_cycles_witness :
    Verification.contains_cycles twoNodeTree = some []
    ∧ (∃ vios, Verification.contains_cycles cyclicTree = some vios ∧ vios ≠ []) :=
  ⟨C6_contains_cycles.2.1 twoNodeTree
      (fun x _ => no_cycle_of_rank (fun s => if s = "r" then 1 else 0)
        (by
          intro a b hE
          obtain ⟨n, hl, hc⟩ := hE
          by_cases ha : a = "r"
          · subst ha
            simp only [twoNodeTree, lookupA, if_pos rfl] at hl
            cases Option.some.inj hl
            simp at hc
            subst hc
            simp
          · by_cases ha2 : a = "a"
            · subst ha2
              simp only [twoNodeTree, lookupA] at hl
              simp at hl
              rw [← hl] at hc
              simp at hc
            · simp [twoNodeTree, lookupA, ha, ha2] at hl)
        x),
   C6_contains_cycles.2.2.1 cyclicTree "a" "r" Relation.ReflTransGen.refl
     (Relation.ReflTransGen.single
       ⟨{ title := "Sequence", id := "r", children := ["a"] }, rfl, by simp⟩)
     ⟨{ title := "Sequence", id := "a", children := ["r"] }, rfl, by simp⟩⟩

end BTree
